import Mathlib

/-!
# Fast Hankel matrix-vector product (`src/hmatmul.c`)

A shallow embedding of `hmatmul.c`, the FFT-based Hankel operator of the
Rssa package, followed by theorems about it.

Modelling conventions

* `R_len_t` values are `Int`.  Signed overflow, which is undefined in C, is
  not modelled: building an operator for `1 ≤ L ≤ N` and applying it to a
  vector of the accepted length keeps every intermediate value between `0`
  and `N`.
* `double` is an arbitrary field `R`; the theorems about numeric results take
  `R = ℝ`.  `fftw_complex` is a pair of `R`.
* A C buffer is a `List (Option α)`: one cell per element, `none` for a cell
  that has been allocated but not written yet.  Every access is checked; an
  access outside the buffer, or a read of an unwritten cell, stops the run
  with a `Fault`.
* FFTW is an external library.  Its two transforms are modelled by their
  documented mathematical definition (the unnormalised DFT), with the
  twiddle factors `tw n m = exp (2 π i m / n)` passed as a table, so that all
  definitions stay executable.  `ExactDFT tw` says that the table holds the
  exact values.
* Resource acquisition is recorded in the `allocs` field of an `Outcome`.
* `hmatmul` reads its vector through a pointer that is never assigned; the
  memory behind that pointer is a parameter of the model.
-/

namespace Hmatmul

open Finset

/-! ## Faults, resources, outcomes -/

/-- Ways a run can stop without producing its result.
`invalid_length_of_input_vector` is the R-level
`error("invalid length of input vector 'v'")` raised by `hmatmul`, and
`negative_length_vectors_are_not_allowed` the R-level error that `allocVector`
raises for a negative length; the other three are the model's reading of
undefined behaviour in C. -/
inductive Fault where
  | invalid_length_of_input_vector
  | negative_length_vectors_are_not_allowed
  | out_of_bounds
  | uninitialised_read
  | null_plan
deriving DecidableEq

/-- The faults that are errors raised at the R level. -/
def Fault.is_R_error : Fault → Bool
  | .invalid_length_of_input_vector => true
  | .negative_length_vectors_are_not_allowed => true
  | _ => false

/-- Resources acquired by the code, in program order. -/
inductive Alloc where
  | Calloc_hankel_matrix
  | fftw_malloc_double (n : Int)
  | fftw_malloc_complex (n : Int)
  | fftw_plan_dft_r2c_1d (n : Int)
  | fftw_plan_dft_c2r_1d (n : Int)
  | allocVector_REALSXP (n : Int)
  | R_MakeExternalPtr
deriving DecidableEq

/-- Equality of run results is decidable, so that runs on concrete inputs can
be compared by evaluation. -/
instance decEqExcept {ε α : Type} [DecidableEq ε] [DecidableEq α] : DecidableEq (Except ε α) :=
  fun a b =>
    match a, b with
    | .ok x, .ok y =>
      if h : x = y then isTrue (by rw [h]) else isFalse (fun h2 => h (by cases h2; rfl))
    | .error x, .error y =>
      if h : x = y then isTrue (by rw [h]) else isFalse (fun h2 => h (by cases h2; rfl))
    | .ok _, .error _ => isFalse (fun h => by cases h)
    | .error _, .ok _ => isFalse (fun h => by cases h)

/-- A run that either returns or stops in undefined behaviour: it raises no
error at the R level. -/
def no_R_error {α : Type} (x : Except Fault α) : Prop :=
  ∀ e, x = .error e → e.is_R_error = false

/-- Result of running a function: what it acquired and what it returned. -/
structure Outcome (α : Type) where
  allocs : List Alloc
  value : Except Fault α

/-! ## Memory -/

/-- A freshly allocated buffer of `n` cells, none of them written.
A negative `n` gives no usable cell. -/
def fftw_malloc {α : Type} (n : Int) : List (Option α) :=
  List.replicate n.toNat none

/-- The call `allocVector(REALSXP, n)`: a fresh R vector of `n` cells, none of
them written; a negative `n` is an R error. -/
def allocVector {α : Type} (n : Int) : Except Fault (List (Option α)) :=
  if n < 0 then .error .negative_length_vectors_are_not_allowed
  else .ok (List.replicate n.toNat none)

/-- The data of an R vector: every cell holds a value. -/
def REAL {α : Type} (x : List α) : List (Option α) :=
  x.map some

/-- Read of `buf[i]`. -/
def load {α : Type} (buf : List (Option α)) (i : Int) : Except Fault α :=
  if i < 0 then .error .out_of_bounds
  else
    match buf[i.toNat]? with
    | none => .error .out_of_bounds
    | some none => .error .uninitialised_read
    | some (some x) => .ok x

/-- Write `buf[i] = x`. -/
def store {α : Type} (buf : List (Option α)) (i : Int) (x : α) :
    Except Fault (List (Option α)) :=
  if 0 ≤ i ∧ i < (buf.length : Int) then .ok (buf.set i.toNat (some x))
  else .error .out_of_bounds

/-- The loop `for (i = a; i < b; ++i) body`, threading the loop state. -/
def for_loop {σ : Type} (a b : Int) (body : σ → Int → Except Fault σ) (s : σ) :
    Except Fault σ :=
  (List.range (b - a).toNat).foldlM (fun s (t : Nat) => body s (a + (t : Int))) s

/-- The call `memset(buf + start, 0, count * sizeof(double))`: `count` cells
from `start` on become `0.0`.  A negative `count` is a huge `size_t`. -/
def memset {α : Type} [Zero α] (buf : List (Option α)) (start count : Int) :
    Except Fault (List (Option α)) :=
  if count < 0 then .error .out_of_bounds
  else for_loop start (start + count) (fun b i => store b i (0 : α)) buf

/-- Read the first `n` cells of a buffer. -/
def load_cells {α : Type} : List (Option α) → Nat → Except Fault (List α)
  | _, 0 => .ok []
  | [], _ + 1 => .error .out_of_bounds
  | none :: _, _ + 1 => .error .uninitialised_read
  | some x :: rest, n + 1 =>
    match load_cells rest n with
    | .ok xs => .ok (x :: xs)
    | .error e => .error e

/-- Overwrite the first `ys.length` cells of a buffer. -/
def store_cells {α : Type} (buf : List (Option α)) (ys : List α) :
    Except Fault (List (Option α)) :=
  if ys.length ≤ buf.length then .ok (ys.map some ++ buf.drop ys.length)
  else .error .out_of_bounds

/-! ## Complex numbers and the two FFTW transforms -/

/-- The C type `fftw_complex`: real and imaginary part. -/
structure fftw_complex (R : Type) where
  re : R
  im : R
deriving DecidableEq

/-- C99 complex multiplication, the `*` of `ocirc[i] * C->circ_freq[i]`. -/
def fftw_complex.mul {R : Type} [Ring R] (a b : fftw_complex R) : fftw_complex R :=
  ⟨a.re * b.re - a.im * b.im, a.re * b.im + a.im * b.re⟩

/-- Coefficient `k` of the forward real-to-complex transform of size `n`:
`Y_k = Σ_j x_j exp (-2 π i j k / n)`. -/
def dft_r2c {R : Type} [Ring R] (tw : Nat → Nat → fftw_complex R) (n : Nat)
    (x : Nat → R) (k : Nat) : fftw_complex R :=
  ⟨∑ j in range n, x j * (tw n (j * k)).re,
   -∑ j in range n, x j * (tw n (j * k)).im⟩

/-- Entry `j` of the backward complex-to-real transform of size `n` applied
to the half spectrum `Y_0 .. Y_(n/2)`: the unnormalised inverse DFT of the
Hermitian extension of `Y`.  The imaginary parts of `Y_0` and, for even `n`,
of `Y_(n/2)` are not used. -/
def dft_c2r {R : Type} [Ring R] (tw : Nat → Nat → fftw_complex R) (n : Nat)
    (Y : Nat → fftw_complex R) (j : Nat) : R :=
  (Y 0).re
  + ∑ k in range ((n - 1) / 2),
      2 * ((Y (k + 1)).re * (tw n (j * (k + 1))).re
            - (Y (k + 1)).im * (tw n (j * (k + 1))).im)
  + (if n % 2 = 0 then (Y (n / 2)).re * (tw n (j * (n / 2))).re else 0)

/-- The call `fftw_execute_dft_r2c(plan, inp, out)` for a plan of size `n`:
reads `inp[0..n-1]` and writes `out[0..n/2]`. -/
def fftw_execute_dft_r2c {R : Type} [Ring R] (tw : Nat → Nat → fftw_complex R)
    (n : Int) (inp : List (Option R)) (out : List (Option (fftw_complex R))) :
    Except Fault (List (Option (fftw_complex R))) :=
  if n ≤ 0 then .error .null_plan
  else do
    let x ← load_cells inp n.toNat
    store_cells out
      ((List.range (n.toNat / 2 + 1)).map (dft_r2c tw n.toNat (fun j => x.getD j 0)))

/-- The call `fftw_execute_dft_c2r(plan, inp, out)` for a plan of size `n`:
reads `inp[0..n/2]` and writes `out[0..n-1]`. -/
def fftw_execute_dft_c2r {R : Type} [Ring R] (tw : Nat → Nat → fftw_complex R)
    (n : Int) (inp : List (Option (fftw_complex R))) (out : List (Option R)) :
    Except Fault (List (Option R)) :=
  if n ≤ 0 then .error .null_plan
  else do
    let Y ← load_cells inp (n.toNat / 2 + 1)
    store_cells out
      ((List.range n.toNat).map (dft_c2r tw n.toNat (fun k => Y.getD k ⟨0, 0⟩)))

/-! ## The operator -/

/-- The C struct `toeplitz_circulant`.  A plan is represented by the
transform size it was created for. -/
structure toeplitz_circulant (R : Type) where
  circ_freq : List (Option (fftw_complex R))
  r2c_plan : Int
  c2r_plan : Int
  window : Int
  length : Int

/-- The C struct `hankel_matrix`. -/
structure hankel_matrix (R : Type) where
  normal : toeplitz_circulant R
  transposed : toeplitz_circulant R

/-- The part "Fill input buffer" of `_initialize_circulant`: the freshly
allocated `circ` after the two copy loops. -/
def _initialize_circulant_fill {R : Type} (F : List (Option R)) (N L : Int) :
    Except Fault (List (Option R)) :=
  let K := N - L + 1
  do
    let circ : List (Option R) := fftw_malloc N
    let circ ← for_loop (K - 1) N
      (fun c i => do let x ← load F i; store c (i - K + 1) x) circ
    for_loop 0 (K - 1)
      (fun c i => do let x ← load F i; store c (L + i) x) circ

/-- The C function `_initialize_circulant(C, F, N, L)`; the filled struct is
returned. -/
def _initialize_circulant {R : Type} [Ring R] (tw : Nat → Nat → fftw_complex R)
    (F : List (Option R)) (N L : Int) : Outcome (toeplitz_circulant R) :=
  { allocs := [.fftw_malloc_double N, .fftw_malloc_complex (N.tdiv 2 + 1),
               .fftw_plan_dft_r2c_1d N, .fftw_plan_dft_c2r_1d N]
    value := do
      let ocirc : List (Option (fftw_complex R)) := fftw_malloc (N.tdiv 2 + 1)
      let circ ← _initialize_circulant_fill F N L
      let ocirc ← fftw_execute_dft_r2c tw N circ ocirc
      pure { circ_freq := ocirc, r2c_plan := N, c2r_plan := N, window := L, length := N } }

/-- The C function `initialize_hmat(F, window)`: `F` is the series and
`window` the integer `INTEGER(window)[0]`. -/
def initialize_hmat {R : Type} [Ring R] (tw : Nat → Nat → fftw_complex R)
    (F : List R) (window : Int) : Outcome (hankel_matrix R) :=
  let N : Int := F.length
  let L := window
  let normal := _initialize_circulant tw (REAL F) N L
  match normal.value with
  | .error e => { allocs := .Calloc_hankel_matrix :: normal.allocs, value := .error e }
  | .ok n =>
    let transposed := _initialize_circulant tw (REAL F) N (N - L + 1)
    match transposed.value with
    | .error e =>
      { allocs := .Calloc_hankel_matrix :: (normal.allocs ++ transposed.allocs)
        value := .error e }
    | .ok t =>
      { allocs := .Calloc_hankel_matrix :: (normal.allocs ++ transposed.allocs)
                    ++ [.R_MakeExternalPtr]
        value := .ok { normal := n, transposed := t } }

/-- The part "Fill the arrays" of `_hmatmul`: the freshly allocated `circ`
after the reversal loop and the `memset`. -/
def _hmatmul_fill {R : Type} [Zero R] (v : List (Option R)) (K L : Int) :
    Except Fault (List (Option R)) :=
  let N := K + L - 1
  do
    let circ : List (Option R) := fftw_malloc N
    let circ ← for_loop 0 K
      (fun c i => do let x ← load v (K - i - 1); store c i x) circ
    memset circ K (L - 1)

/-- The C function `_hmatmul(out, v, K, C)`; the buffer `out` after the call
is returned. -/
def _hmatmul {R : Type} [Field R] (tw : Nat → Nat → fftw_complex R)
    (out : List (Option R)) (v : List (Option R)) (K : Int)
    (C : toeplitz_circulant R) : Outcome (List (Option R)) :=
  let L := C.window
  let N := K + L - 1
  { allocs := [.fftw_malloc_double N, .fftw_malloc_complex (N.tdiv 2 + 1)]
    value := do
      let ocirc : List (Option (fftw_complex R)) := fftw_malloc (N.tdiv 2 + 1)
      let circ ← _hmatmul_fill v K L
      let ocirc ← fftw_execute_dft_r2c tw C.r2c_plan circ ocirc
      let ocirc ← for_loop 0 (N.tdiv 2 + 1)
        (fun o i => do
          let a ← load o i
          let b ← load C.circ_freq i
          store o i (a.mul b)) ocirc
      let circ ← fftw_execute_dft_c2r tw C.c2r_plan ocirc circ
      for_loop 0 L
        (fun o i => do let x ← load circ i; store o i (x / (N : R))) out }

/-- What a call of `hmatmul` leaves behind: the operator behind the external
pointer, the resources acquired, and the returned vector or the fault. -/
structure hmatmul_result (R : Type) where
  hmat : hankel_matrix R
  allocs : List Alloc
  value : Except Fault (List (Option R))

/-- The C function `hmatmul(hmat, v, transposed)`.

The local `double *rV` is declared and never assigned, and it is `rV`, not
`REAL(v)`, that is handed to `_hmatmul`.  The parameter `rV` of the model is
the memory that this indeterminate pointer designates. -/
def hmatmul {R : Type} [Field R] (tw : Nat → Nat → fftw_complex R)
    (rV : List (Option R)) (hmat : hankel_matrix R) (v : List R)
    (transposed : Bool) : hmatmul_result R :=
  let K : Int := v.length
  let C := if transposed then hmat.transposed else hmat.normal
  if K + C.window - 1 ≠ C.length then
    { hmat := hmat, allocs := [], value := .error .invalid_length_of_input_vector }
  else
    match allocVector C.window with
    | .error e => { hmat := hmat, allocs := [], value := .error e }
    | .ok Y =>
      let r := _hmatmul tw Y rV K C
      { hmat := hmat, allocs := .allocVector_REALSXP C.window :: r.allocs, value := r.value }

/-! ## Reference definitions used in the statements -/

/-- The first column of the circulant as the copy loops lay it out. -/
def circulant_column {α : Type} (F : List α) (L : Nat) : List α :=
  F.drop (F.length - L) ++ F.take (F.length - L)

/-- The input of the forward transform in `_hmatmul`: `v` reversed, followed
by `L - 1` zeros. -/
def padded_input {R : Type} [Zero R] (vs : List R) (L : Nat) : List R :=
  vs.reverse ++ List.replicate (L - 1) 0

/-- The `n / 2 + 1` coefficients that the forward transform of size `n`
produces from the real buffer `xs`. -/
def half_spectrum {R : Type} [Ring R] (tw : Nat → Nat → fftw_complex R) (n : Nat)
    (xs : List R) : List (fftw_complex R) :=
  (List.range (n / 2 + 1)).map (dft_r2c tw n (fun j => xs.getD j 0))

/-- The half spectrum after the loop `ocirc[i] = ocirc[i] * C->circ_freq[i]`. -/
def spectrum_product {R : Type} [Ring R] (Ys As : List (fftw_complex R)) :
    List (fftw_complex R) :=
  (List.range Ys.length).map (fun i => (Ys.getD i ⟨0, 0⟩).mul (As.getD i ⟨0, 0⟩))

/-- The values `_hmatmul` writes to `out[0..L-1]`, as a function of the
stored frequency response `As` and the input vector `vs`, for transforms of
size `N`. -/
def circulant_apply {R : Type} [Field R] (tw : Nat → Nat → fftw_complex R) (N L : Nat)
    (As : List (fftw_complex R)) (vs : List R) : List R :=
  let Zs := spectrum_product (half_spectrum tw N (padded_input vs L)) As
  let cs := (List.range N).map (dft_c2r tw N (fun k => Zs.getD k ⟨0, 0⟩))
  (List.range L).map (fun i => cs.getD i 0 / (N : R))

/-- The complex number that an `fftw_complex` over the reals stands for. -/
def toC (z : fftw_complex ℝ) : ℂ :=
  ⟨z.re, z.im⟩

/-- The twiddle table holds the exact values `exp (2 π i m / n)`: the FFT is
the exact DFT. -/
def ExactDFT (tw : Nat → Nat → fftw_complex ℝ) : Prop :=
  ∀ n m : Nat, tw n m
    = ⟨Real.cos (2 * Real.pi * (m : ℝ) / (n : ℝ)), Real.sin (2 * Real.pi * (m : ℝ) / (n : ℝ))⟩

/-- Dense reference product `H(S, L) · v`, with `H[i][j] = S[i + j]` of size
`L × K`, `K = N - L + 1`. -/
def hankel_mul {R : Type} [Ring R] (S : List R) (L : Nat) (v : List R) : List R :=
  (List.range L).map
    (fun i => ∑ j in range (S.length - L + 1), S.getD (i + j) 0 * v.getD j 0)

/-- Dense reference product `H(S, L)ᵀ · w`. -/
def hankel_tmul {R : Type} [Ring R] (S : List R) (L : Nat) (w : List R) : List R :=
  (List.range (S.length - L + 1)).map
    (fun j => ∑ i in range L, S.getD (i + j) 0 * w.getD i 0)

/-- The struct that `_initialize_circulant` fills for a series `F` and a
window `1 ≤ L ≤ N`: the half spectrum of the first column, two plans of size
`N`, the window and the length. -/
def built_circulant {R : Type} [Ring R] (tw : Nat → Nat → fftw_complex R) (F : List R)
    (L : Nat) : toeplitz_circulant R :=
  { circ_freq := REAL (half_spectrum tw F.length (circulant_column F L))
    r2c_plan := F.length
    c2r_plan := F.length
    window := L
    length := F.length }

/-- The exact twiddle factors `exp (2 π i m / n)` for the transform sizes 1, 2
and 4, where they are rational: a table on which the model runs by
evaluation. -/
def tw_rat (n m : Nat) : fftw_complex ℚ :=
  if n = 4 then
    (match m % 4 with
     | 0 => ⟨1, 0⟩
     | 1 => ⟨0, 1⟩
     | 2 => ⟨-1, 0⟩
     | _ => ⟨0, -1⟩)
  else if n = 2 then (if m % 2 = 0 then ⟨1, 0⟩ else ⟨-1, 0⟩)
  else ⟨1, 0⟩

/-- The copies that the two loops of `_initialize_circulant` perform, in
program order, each as the pair (index written in `circ`, index read in `F`):
`(i - K + 1, i)` for `i = K-1 .. N-1`, then `(L + i, i)` for `i = 0 .. K-2`. -/
def _initialize_circulant_copies (N L : Int) : List (Int × Int) :=
  let K := N - L + 1
  (List.range (N - (K - 1)).toNat).map
      (fun (t : Nat) => ((K - 1) + (t : Int) - K + 1, (K - 1) + (t : Int)))
    ++ (List.range ((K - 1) - 0).toNat).map
      (fun (t : Nat) => (L + (0 + (t : Int)), 0 + (t : Int)))

/-- Circular convolution of two sequences of length `N = a.length`, in the
words of the specification: `c[m] = sum over j < N of a[(m - j) mod N] * b[j]`. -/
def circular_convolution {R : Type} [Ring R] (a b : List R) : List R :=
  (List.range a.length).map (fun (m : Nat) =>
    ∑ j in range a.length,
      a.getD (((m : Int) - (j : Int)) % (a.length : Int)).toNat 0 * b.getD j 0)

/-- The frequency-domain computation of `_hmatmul` on two real buffers of
length `N`: forward transform of each (`a` the first column, stored as
`circ_freq`; `b` the padded input), pointwise product of the `N / 2 + 1`
coefficients, backward transform, every entry divided by `N`. -/
def half_spectrum_multiply {R : Type} [Field R] (tw : Nat → Nat → fftw_complex R) (N : Nat)
    (a b : List R) : List R :=
  let Zs := spectrum_product (half_spectrum tw N b) (half_spectrum tw N a)
  (List.range N).map (fun m => dft_c2r tw N (fun k => Zs.getD k ⟨0, 0⟩) m / (N : R))

/-! ## Lemmas about the memory model -/

theorem foldlM_range_inv {σ : Type} (P : Nat → σ → Prop)
    (body : σ → Nat → Except Fault σ) (n : Nat) (s : σ) (h0 : P 0 s)
    (hstep : ∀ t s, t < n → P t s → ∃ s', body s t = .ok s' ∧ P (t + 1) s') :
    ∃ s', (List.range n).foldlM body s = .ok s' ∧ P n s' := by
  induction n with
  | zero => exact ⟨s, rfl, h0⟩
  | succ n ih =>
    obtain ⟨s1, h1, hP1⟩ := ih (fun t s ht hP => hstep t s (by omega) hP)
    obtain ⟨s2, h2, hP2⟩ := hstep n s1 (by omega) hP1
    refine ⟨s2, ?_, hP2⟩
    rw [List.range_succ, List.foldlM_append, h1]
    simpa [List.foldlM] using h2

/-- Loop rule: an invariant indexed by the number of completed iterations. -/
theorem for_loop_inv {σ : Type} (P : Nat → σ → Prop) (a : Int) (n : Nat)
    (body : σ → Int → Except Fault σ) (s : σ) (h0 : P 0 s)
    (hstep : ∀ t s, t < n → P t s → ∃ s', body s (a + (t : Int)) = .ok s' ∧ P (t + 1) s') :
    ∃ s', for_loop a (a + (n : Int)) body s = .ok s' ∧ P n s' := by
  have hn : (a + (n : Int) - a).toNat = n := by simp
  unfold for_loop
  rw [hn]
  exact foldlM_range_inv P (fun s t => body s (a + (t : Int))) n s h0 hstep

theorem store_ok {α : Type} (buf : List (Option α)) (i : Int) (x : α)
    (h0 : 0 ≤ i) (h1 : i < (buf.length : Int)) :
    store buf i x = .ok (buf.set i.toNat (some x)) := by
  simp [store, h0, h1]

theorem load_ok {α : Type} (buf : List (Option α)) (i : Int) (x : α) (h0 : 0 ≤ i)
    (h : buf[i.toNat]? = some (some x)) : load buf i = .ok x := by
  have : ¬ i < 0 := by omega
  simp [load, h, this]

theorem load_REAL {α : Type} (xs : List α) (d : α) (i : Int) (h0 : 0 ≤ i)
    (h1 : i < (xs.length : Int)) : load (REAL xs) i = .ok (xs.getD i.toNat d) := by
  have h2 : i.toNat < xs.length := by omega
  apply load_ok _ _ _ h0
  simp [REAL, List.getElem?_eq_getElem h2]

/-- A loop that writes `f t` to cell `p + t` for `t < n` overwrites exactly
that segment; the body may rely on the cells written so far. -/
theorem for_loop_fill_inv {α : Type} (a b : Int) (n : Nat) (f : Nat → α)
    (body : List (Option α) → Int → Except Fault (List (Option α)))
    (c : List (Option α)) (p : Nat) (hb : b = a + (n : Int)) (hlen : p + n ≤ c.length)
    (hbody : ∀ s t, t < n →
      s = c.take p ++ (List.range t).map (fun t => some (f t)) ++ c.drop (p + t) →
      body s (a + (t : Int)) = .ok (s.set (p + t) (some (f t)))) :
    for_loop a b body c
      = .ok (c.take p ++ (List.range n).map (fun t => some (f t)) ++ c.drop (p + n)) := by
  subst hb
  obtain ⟨s, hs, hP⟩ := for_loop_inv
    (fun t s => s = c.take p ++ (List.range t).map (fun t => some (f t)) ++ c.drop (p + t))
    a n body c (by simp)
    (by
      intro t s ht hP
      refine ⟨s.set (p + t) (some (f t)), hbody s t ht hP, ?_⟩
      obtain ⟨x, hd⟩ : ∃ x, c.drop (p + t) = x :: c.drop (p + t + 1) :=
        ⟨_, List.drop_eq_getElem_cons (by omega)⟩
      rw [hP, hd, List.set_append_right _ _ (by simp)]
      have : p + t - (List.take p c ++ List.map (fun t => some (f t)) (List.range t)).length = 0 := by
        simp; omega
      rw [this, List.set_cons_zero, List.range_succ]
      simp [add_assoc])
  rw [hs, hP]

/-- The same for a body that only needs the written cell to exist. -/
theorem for_loop_fill {α : Type} (a b : Int) (n : Nat) (f : Nat → α)
    (body : List (Option α) → Int → Except Fault (List (Option α)))
    (c : List (Option α)) (p : Nat) (hb : b = a + (n : Int)) (hlen : p + n ≤ c.length)
    (hbody : ∀ c t, t < n → p + t < c.length →
      body c (a + (t : Int)) = .ok (c.set (p + t) (some (f t)))) :
    for_loop a b body c
      = .ok (c.take p ++ (List.range n).map (fun t => some (f t)) ++ c.drop (p + n)) := by
  apply for_loop_fill_inv a b n f body c p hb hlen
  intro s t ht hs
  apply hbody s t ht
  rw [hs]; simp; omega

theorem load_cells_ok {α : Type} (xs : List α) (rest : List (Option α)) :
    load_cells (xs.map some ++ rest) xs.length = .ok xs := by
  induction xs with
  | nil => simp [load_cells]
  | cons x xs ih => simp [load_cells, ih]

theorem map_range_getD {α : Type} (xs : List α) (d : α) (a n : Nat) (h : a + n ≤ xs.length) :
    (List.range n).map (fun t => some (xs.getD (a + t) d)) = REAL ((xs.drop a).take n) := by
  apply List.ext_getElem?
  intro i
  by_cases hi : i < n
  · have h1 : a + i < xs.length := by omega
    simp [REAL, List.getElem?_range hi, List.getElem?_take, hi, List.getElem?_eq_getElem h1]
  · have h2 : n ≤ i := by omega
    have h3 : ((List.range n).map (fun t => some (xs.getD (a + t) d)))[i]? = none := by
      apply List.getElem?_eq_none; simp; omega
    have h4 : (REAL ((xs.drop a).take n))[i]? = none := by
      apply List.getElem?_eq_none; simp [REAL]; omega
    rw [h3, h4]

theorem initialize_circulant_fill_ok {R : Type} [Zero R] (F : List R) (L : Nat)
    (h1 : 1 ≤ L) (h2 : L ≤ F.length) :
    _initialize_circulant_fill (REAL F) (F.length : Int) (L : Int)
      = .ok (REAL (circulant_column F L)) := by
  obtain ⟨M, hM⟩ : ∃ M, F.length = M + L := ⟨F.length - L, by omega⟩
  unfold _initialize_circulant_fill
  simp only []
  rw [for_loop_fill _ _ L (fun t => F.getD (M + t) 0) _ _ 0 (by omega)
    (by simp [fftw_malloc]; omega)]
  · simp only [bind, Except.bind]
    rw [for_loop_fill _ _ M (fun t => F.getD t 0) _ _ L (by omega) (by simp [fftw_malloc]; omega)]
    · have hz := map_range_getD F 0 0 M (by omega)
      simp only [zero_add] at hz
      rw [map_range_getD F 0 M L (by omega), hz]
      have t1 : List.take L (List.drop M F) = List.drop M F :=
        List.take_of_length_le (by simp; omega)
      have t3 : List.take M (List.drop 0 F) = List.take M F := by simp
      rw [t1, t3]
      have t2 : ∀ (X : List (Option R)), X.length = L →
          List.drop (L + M) (List.take 0 (fftw_malloc (F.length : Int)) ++ X
            ++ List.drop (0 + L) (fftw_malloc (F.length : Int))) = [] := by
        intro X hX
        apply List.drop_of_length_le
        simp [fftw_malloc, hX]; omega
      rw [t2 _ (by simp [REAL]; omega)]
      have t4 : F.length - L = M := by omega
      simp [REAL, circulant_column, fftw_malloc, t4]
      rw [List.take_append_of_le_length (by simp; omega)]
      apply List.take_of_length_le
      simp; omega
    · intro c t ht hlt
      rw [load_REAL F 0 _ (by omega) (by omega)]
      show store c _ _ = _
      rw [store_ok _ _ _ (by omega) (by omega)]
      have e1 : ((L : Int) + (0 + (t : Int))).toNat = L + t := by omega
      have e2 : (0 + (t : Int)).toNat = t := by omega
      rw [e1, e2]
  · intro c t ht hlt
    rw [load_REAL F 0 _ (by omega) (by omega)]
    show store c _ _ = _
    rw [store_ok _ _ _ (by omega) (by omega)]
    congr <;> omega

/-! ## The steps of `_hmatmul` on well-formed buffers -/

theorem load_REAL_append {α : Type} (xs : List α) (rest : List (Option α)) (d : α) (i : Int)
    (h0 : 0 ≤ i) (h1 : i < (xs.length : Int)) :
    load (REAL xs ++ rest) i = .ok (xs.getD i.toNat d) := by
  have h2 : i.toNat < xs.length := by omega
  apply load_ok _ _ _ h0
  rw [List.getElem?_append_left (by simp [REAL]; omega)]
  simp [REAL, List.getElem?_eq_getElem h2]

theorem map_range_reverse {α : Type} (xs : List α) (d : α) :
    (List.range xs.length).map (fun t => some (xs.getD (xs.length - 1 - t) d))
      = REAL xs.reverse := by
  apply List.ext_getElem?
  intro i
  by_cases hi : i < xs.length
  · have h1 : xs.length - 1 - i < xs.length := by omega
    have h5 : (REAL xs.reverse)[i]? = some (some (xs.getD (xs.length - 1 - i) d)) := by
      rw [REAL, List.getElem?_map, List.getElem?_reverse hi, List.getElem?_eq_getElem h1]
      simp [List.getElem?_eq_getElem h1]
    rw [h5]
    simp [List.getElem?_range hi]
  · have h3 : ((List.range xs.length).map
        (fun t => some (xs.getD (xs.length - 1 - t) d)))[i]? = none := by
      apply List.getElem?_eq_none; simp; omega
    have h4 : (REAL xs.reverse)[i]? = none := by
      apply List.getElem?_eq_none; simp [REAL]; omega
    rw [h3, h4]

theorem hmatmul_fill_ok {R : Type} [Zero R] (vs : List R) (rest : List (Option R)) (L : Nat)
    (h1 : 1 ≤ L) :
    _hmatmul_fill (REAL vs ++ rest) (vs.length : Int) (L : Int)
      = .ok (REAL (padded_input vs L)) := by
  unfold _hmatmul_fill
  simp only []
  rw [for_loop_fill _ _ vs.length (fun t => vs.getD (vs.length - 1 - t) 0) _ _ 0 (by omega)
    (by simp [fftw_malloc]; omega)]
  · simp only [bind, Except.bind, memset]
    have hc : ¬ ((L : Int) - 1 < 0) := by omega
    rw [if_neg hc]
    rw [for_loop_fill _ _ (L - 1) (fun _ => (0 : R)) _ _ vs.length (by omega)
      (by simp [fftw_malloc]; omega)]
    · rw [map_range_reverse]
      have t2 : ∀ (X : List (Option R)), X.length = vs.length →
          List.drop (vs.length + (L - 1)) (List.take 0 (fftw_malloc ((vs.length : Int) + L - 1)) ++ X
            ++ List.drop (0 + vs.length) (fftw_malloc ((vs.length : Int) + L - 1))) = [] := by
        intro X hX
        apply List.drop_of_length_le
        simp [fftw_malloc, hX]; omega
      rw [t2 _ (by simp [REAL])]
      simp only [List.take_zero, List.nil_append, List.append_nil]
      rw [List.take_append_of_le_length (by simp [REAL])]
      rw [List.take_of_length_le (by simp [REAL])]
      simp [REAL, padded_input]
    · intro c t ht hlt
      rw [store_ok _ _ _ (by omega) (by omega)]
      have e1 : ((vs.length : Int) + (t : Int)).toNat = vs.length + t := by omega
      rw [e1]
  · intro c t ht hlt
    rw [load_REAL_append vs rest 0 _ (by omega) (by omega)]
    show store c _ _ = _
    rw [store_ok _ _ _ (by omega) (by omega)]
    have e1 : ((0 : Int) + (t : Int)).toNat = 0 + t := by omega
    have e2 : ((vs.length : Int) - (0 + (t : Int)) - 1).toNat = vs.length - 1 - t := by omega
    rw [e1, e2]

theorem tdiv_two (n : Nat) : (n : Int).tdiv 2 = ((n / 2 : Nat) : Int) :=
  (Int.ofNat_tdiv n 2).symm

theorem r2c_ok {R : Type} [Ring R] (tw : Nat → Nat → fftw_complex R) (n : Nat) (hn : 1 ≤ n)
    (xs : List R) (hx : xs.length = n) :
    fftw_execute_dft_r2c tw (n : Int) (REAL xs) (fftw_malloc ((n : Int).tdiv 2 + 1))
      = .ok (REAL (half_spectrum tw n xs)) := by
  unfold fftw_execute_dft_r2c
  have hc : ¬ ((n : Int) ≤ 0) := by omega
  rw [if_neg hc]
  have h1 : load_cells (REAL xs) (n : Int).toNat = .ok xs := by
    have := load_cells_ok xs []
    simpa [REAL, hx] using this
  simp only [bind, Except.bind, h1, store_cells]
  rw [if_pos (by simp [fftw_malloc, tdiv_two]; omega)]
  simp [REAL, half_spectrum, fftw_malloc, tdiv_two]

theorem c2r_ok {R : Type} [Ring R] (tw : Nat → Nat → fftw_complex R) (n : Nat) (hn : 1 ≤ n)
    (Zs : List (fftw_complex R)) (hz : Zs.length = n / 2 + 1)
    (circ : List (Option R)) (hc : circ.length = n) :
    fftw_execute_dft_c2r tw (n : Int) (REAL Zs) circ
      = .ok (REAL ((List.range n).map (dft_c2r tw n (fun k => Zs.getD k ⟨0, 0⟩)))) := by
  unfold fftw_execute_dft_c2r
  have hc0 : ¬ ((n : Int) ≤ 0) := by omega
  rw [if_neg hc0]
  have h1 : load_cells (REAL Zs) ((n : Int).toNat / 2 + 1) = .ok Zs := by
    have := load_cells_ok Zs []
    simpa [REAL, hz] using this
  simp only [bind, Except.bind, h1, store_cells]
  rw [if_pos (by simp [hc])]
  simp [REAL]
  omega

theorem mul_loop_ok {R : Type} [Ring R] (Ys As : List (fftw_complex R))
    (rest : List (Option (fftw_complex R))) (b : Int) (hb : b = (Ys.length : Int))
    (hA : Ys.length ≤ As.length) :
    for_loop 0 b
        (fun o i => do
          let x ← load o i
          let y ← load (REAL As ++ rest) i
          store o i (x.mul y)) (REAL Ys)
      = .ok (REAL (spectrum_product Ys As)) := by
  rw [for_loop_fill_inv 0 b Ys.length
    (fun i => (Ys.getD i ⟨0, 0⟩).mul (As.getD i ⟨0, 0⟩)) _ _ 0 (by omega) (by simp [REAL])]
  · have : List.drop (0 + Ys.length) (REAL Ys) = [] :=
      List.drop_of_length_le (by simp [REAL])
    rw [this]
    simp [REAL, spectrum_product]
  · intro s t ht hs
    have hlen : s.length = Ys.length := by
      rw [hs]; simp [REAL]; omega
    have hget : s[((0 : Int) + (t : Int)).toNat]? = some (some (Ys.getD t ⟨0, 0⟩)) := by
      have e : ((0 : Int) + (t : Int)).toNat = t := by omega
      rw [e, hs, List.getElem?_append_right (by simp)]
      simp [REAL, List.getElem?_eq_getElem ht]
    rw [load_ok s _ _ (by omega) hget]
    show (do let y ← load (REAL As ++ rest) _; store s _ _) = _
    rw [load_REAL_append As rest ⟨0, 0⟩ _ (by omega) (by omega)]
    show store s _ _ = _
    rw [store_ok _ _ _ (by omega) (by omega)]
    have e : ((0 : Int) + (t : Int)).toNat = 0 + t := by omega
    rw [e]
    simp

theorem out_loop_ok {R : Type} [Field R] (cs : List R) (out : List (Option R)) (L : Nat)
    (b : Int) (hb : b = (L : Int)) (hc : L ≤ cs.length) (ho : L ≤ out.length) (N : R) :
    for_loop 0 b (fun o i => do let x ← load (REAL cs) i; store o i (x / N)) out
      = .ok (REAL ((List.range L).map (fun i => cs.getD i 0 / N)) ++ out.drop L) := by
  rw [for_loop_fill 0 b L (fun i => cs.getD i 0 / N) _ _ 0 (by omega) (by omega)]
  · simp [REAL]
  · intro c t ht hlt
    rw [load_REAL cs 0 _ (by omega) (by omega)]
    show store c _ _ = _
    rw [store_ok _ _ _ (by omega) (by omega)]
    have e : ((0 : Int) + (t : Int)).toNat = 0 + t := by omega
    rw [e]
    simp

/-! ## `_initialize_circulant` and `_hmatmul` on well-formed arguments -/

theorem ok_bind {α β : Type} (x : α) (f : α → Except Fault β) :
    (Except.ok x >>= f) = f x := rfl

theorem padded_input_length {R : Type} [Zero R] (vs : List R) (L : Nat) (h : 1 ≤ L) :
    (padded_input vs L).length = vs.length + L - 1 := by
  simp only [padded_input, List.length_append, List.length_reverse, List.length_replicate]
  omega

theorem half_spectrum_length {R : Type} [Ring R] (tw : Nat → Nat → fftw_complex R)
    (n : Nat) (xs : List R) : (half_spectrum tw n xs).length = n / 2 + 1 := by
  simp [half_spectrum]

theorem spectrum_product_length {R : Type} [Ring R] (Ys As : List (fftw_complex R)) :
    (spectrum_product Ys As).length = Ys.length := by
  simp [spectrum_product]

theorem circulant_column_length {α : Type} (F : List α) (L : Nat) (h : L ≤ F.length) :
    (circulant_column F L).length = F.length := by
  simp only [circulant_column, List.length_append, List.length_drop, List.length_take]
  omega

/-- On a series `F` and a window `1 ≤ L ≤ N`, `_initialize_circulant` returns
the struct holding the half spectrum of the first column. -/
theorem initialize_circulant_ok {R : Type} [Ring R] (tw : Nat → Nat → fftw_complex R)
    (F : List R) (L : Nat) (h1 : 1 ≤ L) (h2 : L ≤ F.length) :
    (_initialize_circulant tw (REAL F) (F.length : Int) (L : Int)).value
      = .ok (built_circulant tw F L) := by
  unfold _initialize_circulant
  simp only []
  rw [initialize_circulant_fill_ok F L h1 h2]
  simp only [ok_bind]
  rw [r2c_ok tw F.length (by omega) _ (circulant_column_length F L h2)]
  rfl

/-- On a circulant whose plans have the size `N = K + L - 1` that `_hmatmul`
computes, `_hmatmul` writes `circulant_apply` to the first `L` cells of `out`. -/
theorem hmatmul_core_ok {R : Type} [Field R] (tw : Nat → Nat → fftw_complex R)
    (C : toeplitz_circulant R) (L : Nat) (vs : List R) (rest : List (Option R))
    (As : List (fftw_complex R)) (restA : List (Option (fftw_complex R)))
    (out : List (Option R))
    (hw : C.window = (L : Int)) (hL : 1 ≤ L) (hK : 1 ≤ vs.length)
    (hr : C.r2c_plan = ((vs.length + L - 1 : Nat) : Int))
    (hc : C.c2r_plan = ((vs.length + L - 1 : Nat) : Int))
    (hA : C.circ_freq = REAL As ++ restA) (hAl : (vs.length + L - 1) / 2 + 1 ≤ As.length)
    (ho : L ≤ out.length) :
    (_hmatmul tw out (REAL vs ++ rest) (vs.length : Int) C).value
      = .ok (REAL (circulant_apply tw (vs.length + L - 1) L As vs) ++ out.drop L) := by
  unfold _hmatmul
  simp only []
  have eN : (vs.length : Int) + (L : Int) - 1 = ((vs.length + L - 1 : Nat) : Int) := by omega
  have hN : 1 ≤ vs.length + L - 1 := by omega
  rw [hw, hr, hc, hA, eN, hmatmul_fill_ok vs rest L hL]
  simp only [ok_bind]
  rw [r2c_ok tw _ hN _ (padded_input_length vs L hL)]
  simp only [ok_bind]
  rw [mul_loop_ok _ As restA _ (by rw [half_spectrum_length, tdiv_two]; push_cast; ring)
    (by rw [half_spectrum_length]; exact hAl)]
  simp only [ok_bind]
  rw [c2r_ok tw _ hN _ (by rw [spectrum_product_length, half_spectrum_length])
    _ (by simp [REAL, padded_input]; omega)]
  simp only [ok_bind]
  rw [out_loop_ok _ out L _ rfl (by simp; omega) ho]
  simp [circulant_apply]

/-! ## The discrete Fourier transform over a field -/

/-- Sum of the powers of a root of unity. -/
theorem geom_root_sum {F : Type} [Field F] (ω : F) (n : Nat) (hω : IsPrimitiveRoot ω n)
    (hn : 0 < n) (z : Int) :
    ∑ k in range n, ω ^ (z * (k : Int)) = if (n : Int) ∣ z then (n : F) else 0 := by
  have h0 : ω ≠ 0 := hω.ne_zero hn.ne.symm
  have hpow : ∀ k : Nat, ω ^ (z * (k : Int)) = (ω ^ z) ^ k := by
    intro k; rw [zpow_mul, zpow_natCast]
  simp only [hpow]
  by_cases hd : (n : Int) ∣ z
  · rw [if_pos hd, (hω.zpow_eq_one_iff_dvd z).2 hd]
    simp
  · rw [if_neg hd]
    have h1 : ω ^ z ≠ 1 := fun h => hd ((hω.zpow_eq_one_iff_dvd z).1 h)
    have h2 : (ω ^ z) ^ n = 1 := by
      rw [← zpow_natCast, ← zpow_mul, mul_comm, zpow_mul, zpow_natCast, hω.pow_eq_one]
      simp
    rw [geom_sum_eq h1, h2]
    simp

/-- The index of the first column that meets `y b` in row `j` of the
circulant product. -/
theorem circ_index_unique (n j b a : Nat) (hn : 0 < n) (hb : b < n) (ha : a < n) :
    (n : Int) ∣ ((j : Int) - a - b) ↔ a = (j + n - b) % n := by
  have hq := Nat.div_add_mod (j + n - b) n
  have hlt := Nat.mod_lt (j + n - b) hn
  generalize (j + n - b) % n = r at hq hlt ⊢
  generalize (j + n - b) / n = q at hq
  have e1 : ((j + n - b : Nat) : Int) = (j : Int) + n - b := by omega
  have e2 : ((n * q + r : Nat) : Int) = (n : Int) * q + r := by push_cast; ring
  have hq2 : (n : Int) * q + r = (j : Int) + n - b := by rw [← e2, hq, e1]
  constructor
  · rintro ⟨c, hc⟩
    have hd : (n : Int) ∣ (r : Int) - (a : Int) := by
      refine ⟨c + 1 - q, ?_⟩
      linear_combination hc + hq2
    have habs : |(r : Int) - (a : Int)| < (n : Int) := by
      rw [abs_lt]; constructor <;> omega
    have := Int.eq_zero_of_abs_lt_dvd hd habs
    omega
  · intro h
    refine ⟨q - 1, ?_⟩
    have ha2 : (a : Int) = (r : Int) := by rw [h]
    linear_combination -hq2 - ha2

/-- Convolution theorem: the inverse DFT of the pointwise product of two
spectra is `n` times the circular convolution. -/
theorem dft_convolution {F : Type} [Field F] (ω : F) (n : Nat) (hω : IsPrimitiveRoot ω n)
    (hn : 0 < n) (x y : Nat → F) (j : Nat) :
    ∑ k in range n,
        ((∑ b in range n, y b * ω ^ (-((b : Int) * (k : Int))))
          * (∑ a in range n, x a * ω ^ (-((a : Int) * (k : Int)))))
          * ω ^ ((j : Int) * (k : Int))
      = (n : F) * ∑ b in range n, x ((j + n - b) % n) * y b := by
  have h0 : ω ≠ 0 := hω.ne_zero hn.ne.symm
  have step1 : ∀ k : Nat,
      ((∑ b in range n, y b * ω ^ (-((b : Int) * (k : Int))))
          * (∑ a in range n, x a * ω ^ (-((a : Int) * (k : Int)))))
          * ω ^ ((j : Int) * (k : Int))
        = ∑ b in range n, ∑ a in range n,
            (y b * x a) * ω ^ (((j : Int) - a - b) * (k : Int)) := by
    intro k
    rw [Finset.sum_mul_sum, Finset.sum_mul]
    apply Finset.sum_congr rfl
    intro b _
    rw [Finset.sum_mul]
    apply Finset.sum_congr rfl
    intro a _
    have : ω ^ (((j : Int) - a - b) * (k : Int))
        = ω ^ (-((b : Int) * (k : Int))) * ω ^ (-((a : Int) * (k : Int)))
          * ω ^ ((j : Int) * (k : Int)) := by
      rw [← zpow_add₀ h0, ← zpow_add₀ h0]; congr 1; ring
    rw [this]; ring
  simp only [step1]
  rw [Finset.sum_comm, Finset.mul_sum]
  apply Finset.sum_congr rfl
  intro b hb
  rw [Finset.sum_comm]
  simp only [← Finset.mul_sum, geom_root_sum ω n hω hn]
  rw [Finset.sum_eq_single ((j + n - b) % n)]
  · rw [if_pos ((circ_index_unique n j b _ hn (Finset.mem_range.1 hb)
      (Nat.mod_lt _ hn)).2 rfl)]
    ring
  · intro a ha hne
    rw [if_neg (fun h => hne ((circ_index_unique n j b a hn (Finset.mem_range.1 hb)
      (Finset.mem_range.1 ha)).1 h))]
    ring
  · intro h
    exact absurd (Finset.mem_range.2 (Nat.mod_lt _ hn)) h

/-! ## The half spectrum of a real signal -/

/-- Splitting a sum over `0..n-1` into the term `0`, the pairs `k, n - k`
and, for even `n`, the middle term. -/
theorem sum_range_pairs {M : Type} [AddCommMonoid M] (f : Nat → M) (n : Nat) (hn : 0 < n) :
    ∑ k in range n, f k
      = f 0 + ∑ k in range ((n - 1) / 2), (f (k + 1) + f (n - (k + 1)))
        + (if n % 2 = 0 then f (n / 2) else 0) := by
  obtain ⟨h, hh⟩ : ∃ h, n = 2 * h + 1 ∨ n = 2 * h + 2 := ⟨(n - 1) / 2, by omega⟩
  rcases hh with rfl | rfl
  · have e1 : (2 * h + 1 - 1) / 2 = h := by omega
    have e2 : ¬ ((2 * h + 1) % 2 = 0) := by omega
    rw [e1, if_neg e2, add_zero, Finset.sum_range_succ', Finset.sum_add_distrib]
    have e3 : 2 * h = h + h := by ring
    rw [e3, Finset.sum_range_add]
    have e4 : ∑ k in range h, f (h + h + 1 - (k + 1)) = ∑ k in range h, f (h + k + 1) := by
      rw [← Finset.sum_range_reflect (fun k => f (h + k + 1)) h]
      apply Finset.sum_congr rfl
      intro k hk
      have := Finset.mem_range.1 hk
      congr 1; omega
    rw [e4]
    abel
  · have e1 : (2 * h + 2 - 1) / 2 = h := by omega
    have e2 : (2 * h + 2) % 2 = 0 := by omega
    have e5 : (2 * h + 2) / 2 = h + 1 := by omega
    rw [e1, if_pos e2, e5, Finset.sum_range_succ', Finset.sum_add_distrib]
    have e3 : 2 * h + 1 = h + (h + 1) := by ring
    rw [e3, Finset.sum_range_add, Finset.sum_range_succ' (fun x => f (h + x + 1))]
    have e4 : ∑ k in range h, f (2 * h + 2 - (k + 1))
        = ∑ k in range h, f (h + (k + 1) + 1) := by
      rw [← Finset.sum_range_reflect (fun k => f (h + (k + 1) + 1)) h]
      apply Finset.sum_congr rfl
      intro k hk
      have := Finset.mem_range.1 hk
      congr 1; omega
    rw [e4]
    simp only [add_zero]
    abel

theorem toC_mul (a b : fftw_complex ℝ) : toC (a.mul b) = toC a * toC b := by
  apply Complex.ext <;> simp [toC, fftw_complex.mul]

theorem conj_zpow_root (ω : ℂ) (hconj : (starRingEnd ℂ) ω = ω⁻¹) (z : Int) :
    (starRingEnd ℂ) (ω ^ z) = ω ^ (-z) := by
  rw [map_zpow₀, hconj, inv_zpow, zpow_neg]

theorem ofReal_re_of_conj (z : ℂ) (h : (starRingEnd ℂ) z = z) : ((z.re : ℝ) : ℂ) = z := by
  have him : z.im = 0 := Complex.conj_eq_iff_im.1 h
  apply Complex.ext <;> simp [him]

/-- The backward transform of a half spectrum that extends to a Hermitian
sequence `Z` is the full inverse DFT of `Z`. -/
theorem c2r_eq_full_sum (tw : Nat → Nat → fftw_complex ℝ) (n : Nat) (hn : 0 < n) (ω : ℂ)
    (hω : IsPrimitiveRoot ω n) (hconj : (starRingEnd ℂ) ω = ω⁻¹)
    (htw : ∀ m : Nat, toC (tw n m) = ω ^ (m : Int))
    (Y : Nat → fftw_complex ℝ) (Z : Int → ℂ)
    (hZ : ∀ k : Nat, k ≤ n / 2 → toC (Y k) = Z k)
    (hsym : ∀ k, (starRingEnd ℂ) (Z k) = Z (-k)) (hper : ∀ k, Z (k + n) = Z k) (j : Nat) :
    ((dft_c2r tw n Y j : ℝ) : ℂ) = ∑ k in range n, Z (k : Int) * ω ^ ((j : Int) * (k : Int)) := by
  have h0 : ω ≠ 0 := hω.ne_zero hn.ne.symm
  have hωn : ∀ z : Int, ω ^ (z + (j : Int) * n) = ω ^ z := by
    intro z
    rw [zpow_add₀ h0, mul_comm (j : Int) (n : Int), zpow_mul, zpow_natCast, zpow_natCast,
      hω.pow_eq_one]
    simp
  have hYre : ∀ k : Nat, k ≤ n / 2 → (Y k).re = (Z k).re := by
    intro k hk; rw [← hZ k hk]; rfl
  have hYim : ∀ k : Nat, k ≤ n / 2 → (Y k).im = (Z k).im := by
    intro k hk; rw [← hZ k hk]; rfl
  have htre : ∀ m : Nat, (tw n m).re = (ω ^ (m : Int)).re := by
    intro m; rw [← htw m]; rfl
  have htim : ∀ m : Nat, (tw n m).im = (ω ^ (m : Int)).im := by
    intro m; rw [← htw m]; rfl
  rw [sum_range_pairs (fun k : Nat => Z (k : Int) * ω ^ ((j : Int) * (k : Int))) n hn]
  unfold dft_c2r
  rw [Complex.ofReal_add, Complex.ofReal_add, Complex.ofReal_sum]
  congr 1
  · congr 1
    · rw [hYre 0 (by omega)]
      have : (starRingEnd ℂ) (Z ((0 : Nat) : Int)) = Z ((0 : Nat) : Int) := by
        rw [hsym]; simp
      rw [ofReal_re_of_conj _ this]
      simp
    · apply Finset.sum_congr rfl
      intro k hk
      have hk1 := Finset.mem_range.1 hk
      have hk2 : k + 1 ≤ n / 2 := by omega
      rw [hYre _ hk2, hYim _ hk2, htre, htim]
      have hG : Z ((n - (k + 1) : Nat) : Int) * ω ^ ((j : Int) * ((n - (k + 1) : Nat) : Int))
          = (starRingEnd ℂ) (Z ((k + 1 : Nat) : Int) * ω ^ ((j : Int) * ((k + 1 : Nat) : Int))) := by
        have e : ((n - (k + 1) : Nat) : Int) = -((k + 1 : Nat) : Int) + n := by omega
        rw [map_mul, conj_zpow_root ω hconj, hsym, e, hper, mul_add, hωn]
        congr 2
      rw [hG, Complex.add_conj]
      have e2 : ((j * (k + 1) : Nat) : Int) = (j : Int) * ((k + 1 : Nat) : Int) := by push_cast; ring
      rw [e2]
      simp only [Complex.mul_re]
  · by_cases he : n % 2 = 0
    · rw [if_pos he, if_pos he]
      have hk2 : n / 2 ≤ n / 2 := le_refl _
      rw [hYre _ hk2, htre]
      have e2 : ((j * (n / 2) : Nat) : Int) = (j : Int) * ((n / 2 : Nat) : Int) := by push_cast; ring
      have e3 : -((n / 2 : Nat) : Int) + n = ((n / 2 : Nat) : Int) := by omega
      have c1 : (starRingEnd ℂ) (Z ((n / 2 : Nat) : Int)) = Z ((n / 2 : Nat) : Int) := by
        rw [hsym, ← hper, e3]
      have c2 : (starRingEnd ℂ) (ω ^ ((j : Int) * ((n / 2 : Nat) : Int)))
          = ω ^ ((j : Int) * ((n / 2 : Nat) : Int)) := by
        rw [conj_zpow_root ω hconj, ← hωn]
        congr 1
        linear_combination (j : Int) * e3
      rw [e2, Complex.ofReal_mul, ofReal_re_of_conj _ c1, ofReal_re_of_conj _ c2]
    · rw [if_neg he, if_neg he]; simp

/-! ## The exact DFT -/

theorem exactDFT_root (n : Nat) :
    (starRingEnd ℂ) (Complex.exp (2 * Real.pi * Complex.I / n))
      = (Complex.exp (2 * Real.pi * Complex.I / n))⁻¹ := by
  rw [← Complex.exp_conj, ← Complex.exp_neg]
  congr 1
  have e : (2 * (Real.pi : ℂ) * Complex.I / (n : ℂ))
      = ((2 * Real.pi / (n : ℝ) : ℝ) : ℂ) * Complex.I := by
    push_cast; ring
  rw [e, map_mul, Complex.conj_ofReal, Complex.conj_I]
  ring

theorem exactDFT_tw (tw : Nat → Nat → fftw_complex ℝ) (hE : ExactDFT tw) (n m : Nat) :
    toC (tw n m) = Complex.exp (2 * Real.pi * Complex.I / n) ^ (m : Int) := by
  rw [hE n m, zpow_natCast, ← Complex.exp_nat_mul]
  have e : (m : ℂ) * (2 * Real.pi * Complex.I / n)
      = ((2 * Real.pi * (m : ℝ) / (n : ℝ) : ℝ) : ℂ) * Complex.I := by
    push_cast; ring
  rw [e]
  apply Complex.ext
  · rw [Complex.exp_ofReal_mul_I_re]; rfl
  · rw [Complex.exp_ofReal_mul_I_im]; rfl

/-- The forward transform, read as a complex number. -/
theorem r2c_toC (tw : Nat → Nat → fftw_complex ℝ) (n : Nat) (ω : ℂ)
    (hconj : (starRingEnd ℂ) ω = ω⁻¹) (htw : ∀ m : Nat, toC (tw n m) = ω ^ (m : Int))
    (x : Nat → ℝ) (k : Nat) :
    toC (dft_r2c tw n x k)
      = ∑ a in range n, (x a : ℂ) * ω ^ (-((a : Int) * (k : Int))) := by
  have hterm : ∀ a : Nat, (x a : ℂ) * ω ^ (-((a : Int) * (k : Int)))
      = (((x a * (tw n (a * k)).re : ℝ) : ℂ)) + ((-(x a * (tw n (a * k)).im) : ℝ) : ℂ) * Complex.I := by
    intro a
    have e : ω ^ (-((a : Int) * (k : Int))) = (starRingEnd ℂ) (toC (tw n (a * k))) := by
      rw [htw, conj_zpow_root ω hconj]; push_cast; rfl
    rw [e]
    apply Complex.ext <;> simp [toC]
  simp only [hterm]
  rw [Finset.sum_add_distrib, ← Finset.sum_mul, ← Complex.ofReal_sum, ← Complex.ofReal_sum]
  apply Complex.ext <;> simp [toC, dft_r2c]

/-- Over the reals with the exact DFT, transforming two signals, multiplying
the half spectra and transforming back gives `n` times their circular
convolution. -/
theorem half_spectrum_convolution (tw : Nat → Nat → fftw_complex ℝ) (hE : ExactDFT tw)
    (n : Nat) (hn : 0 < n) (x y : Nat → ℝ) (Y : Nat → fftw_complex ℝ)
    (hY : ∀ k : Nat, k ≤ n / 2 → Y k = (dft_r2c tw n y k).mul (dft_r2c tw n x k)) (j : Nat) :
    dft_c2r tw n Y j = (n : ℝ) * ∑ b in range n, x ((j + n - b) % n) * y b := by
  have hω := Complex.isPrimitiveRoot_exp n hn.ne.symm
  have hconj := exactDFT_root n
  have htw := exactDFT_tw tw hE n
  generalize Complex.exp (2 * Real.pi * Complex.I / n) = ω at hω hconj htw
  have h0 : ω ≠ 0 := hω.ne_zero hn.ne.symm
  obtain ⟨Z, hZdef⟩ : ∃ Z : Int → ℂ, ∀ k, Z k
      = (∑ b in range n, (y b : ℂ) * ω ^ (-((b : Int) * k)))
        * (∑ a in range n, (x a : ℂ) * ω ^ (-((a : Int) * k))) := ⟨_, fun _ => rfl⟩
  have hZ : ∀ k : Nat, k ≤ n / 2 → toC (Y k) = Z k := by
    intro k hk
    rw [hY k hk, toC_mul, r2c_toC tw n ω hconj htw, r2c_toC tw n ω hconj htw, hZdef]
  have hsym : ∀ k, (starRingEnd ℂ) (Z k) = Z (-k) := by
    intro k
    simp only [hZdef, map_mul, map_sum, conj_zpow_root ω hconj, Complex.conj_ofReal, mul_neg]
  have hper : ∀ k, Z (k + n) = Z k := by
    intro k
    have e : ∀ a : Nat, ω ^ (-((a : Int) * (k + n))) = ω ^ (-((a : Int) * k)) := by
      intro a
      have : -((a : Int) * (k + n)) = -((a : Int) * k) + (n : Int) * (-(a : Int)) := by ring
      rw [this, zpow_add₀ h0, zpow_mul, zpow_natCast, hω.pow_eq_one]
      simp
    simp only [hZdef, e]
  apply Complex.ofReal_injective
  rw [c2r_eq_full_sum tw n hn ω hω hconj htw Y Z hZ hsym hper j]
  simp only [hZdef]
  rw [dft_convolution ω n hω hn (fun a => (x a : ℂ)) (fun b => (y b : ℂ)) j]
  push_cast
  rfl

/-! ## The circulant embedding reproduces the Hankel product -/

theorem circulant_column_getD {R : Type} [Zero R] (F : List R) (L m : Nat)
    (hL : L ≤ F.length) (hm : m < F.length) :
    (circulant_column F L).getD m 0
      = if m < L then F.getD (F.length - L + m) 0 else F.getD (m - L) 0 := by
  unfold circulant_column
  by_cases h : m < L
  · rw [if_pos h, List.getD_append _ _ _ _ (by simp; omega)]
    simp [List.getElem?_drop]
  · rw [if_neg h, List.getD_append_right _ _ _ _ (by simp; omega)]
    have e : (List.drop (F.length - L) F).length = L := by simp; omega
    rw [e]
    simp only [List.getD_eq_getElem?_getD, List.getElem?_take]
    rw [if_pos (by omega)]

theorem padded_input_getD {R : Type} [Zero R] (vs : List R) (L b : Nat) :
    (padded_input vs L).getD b 0
      = if b < vs.length then vs.getD (vs.length - 1 - b) 0 else 0 := by
  unfold padded_input
  by_cases h : b < vs.length
  · rw [if_pos h, List.getD_append _ _ _ _ (by simp; omega)]
    simp [List.getElem?_reverse h]
  · rw [if_neg h, List.getD_append_right _ _ _ _ (by simp; omega)]
    simp only [List.length_reverse, List.getD_eq_getElem?_getD, List.getElem?_replicate]
    split_ifs <;> rfl

/-- Row `i` of the circular convolution of the first column with the
reversed, zero-padded input is row `i` of the Hankel product. -/
theorem circular_row_eq_hankel_row {R : Type} [Ring R] (F vs : List R) (L i : Nat)
    (h1 : 1 ≤ L) (h2 : L ≤ F.length) (hK : vs.length = F.length - L + 1) (hi : i < L) :
    ∑ b in range F.length,
        (circulant_column F L).getD ((i + F.length - b) % F.length) 0
          * (padded_input vs L).getD b 0
      = ∑ t in range (F.length - L + 1), F.getD (i + t) 0 * vs.getD t 0 := by
  have hN : F.length = vs.length + (L - 1) := by omega
  have hpos : 0 < F.length := by omega
  rw [← hK]
  nth_rewrite 1 [hN]
  rw [Finset.sum_range_add]
  have hz : ∑ x in range (L - 1),
      (circulant_column F L).getD ((i + F.length - (vs.length + x)) % F.length) 0
        * (padded_input vs L).getD (vs.length + x) 0 = 0 := by
    apply Finset.sum_eq_zero
    intro x _
    rw [padded_input_getD, if_neg (by omega)]
    simp
  rw [hz, add_zero, ← Finset.sum_range_reflect]
  apply Finset.sum_congr rfl
  intro t ht
  have ht2 := Finset.mem_range.1 ht
  rw [padded_input_getD, if_pos (by omega),
    circulant_column_getD F L _ h2 (Nat.mod_lt _ hpos)]
  have e1 : vs.length - 1 - (vs.length - 1 - t) = t := by omega
  rw [e1]
  congr 1
  by_cases hc : i + t + L < F.length
  · have e2 : (i + F.length - (vs.length - 1 - t)) % F.length = i + t + L := by
      have : i + F.length - (vs.length - 1 - t) = i + t + L := by omega
      rw [this, Nat.mod_eq_of_lt hc]
    rw [e2, if_neg (by omega)]
    congr 1; omega
  · have e2 : (i + F.length - (vs.length - 1 - t)) % F.length = i + t + L - F.length := by
      have : i + F.length - (vs.length - 1 - t) = (i + t + L - F.length) + F.length := by omega
      rw [this, Nat.add_mod_right, Nat.mod_eq_of_lt (by omega)]
    rw [e2, if_pos (by omega)]
    congr 1; omega

theorem map_range_getD_lt {α : Type} (g : Nat → α) (n i : Nat) (d : α) (h : i < n) :
    ((List.range n).map g).getD i d = g i := by
  simp [List.getElem?_range h]

/-- With the exact DFT, what `_hmatmul` computes from the frequency response
stored by `_initialize_circulant` is the dense Hankel product. -/
theorem circulant_apply_eq_hankel (tw : Nat → Nat → fftw_complex ℝ) (hE : ExactDFT tw)
    (F vs : List ℝ) (L : Nat) (h1 : 1 ≤ L) (h2 : L ≤ F.length)
    (hK : vs.length = F.length - L + 1) :
    circulant_apply tw F.length L (half_spectrum tw F.length (circulant_column F L)) vs
      = hankel_mul F L vs := by
  have hpos : 0 < F.length := by omega
  unfold circulant_apply hankel_mul
  simp only []
  apply List.map_congr_left
  intro i hi
  have hi2 : i < L := List.mem_range.1 hi
  rw [map_range_getD_lt _ _ _ _ (by omega)]
  rw [half_spectrum_convolution tw hE F.length hpos
    (fun j => (circulant_column F L).getD j 0) (fun j => (padded_input vs L).getD j 0) _ _ i]
  · rw [circular_row_eq_hankel_row F vs L i h1 h2 hK hi2]
    have hne : (F.length : ℝ) ≠ 0 := by exact_mod_cast hpos.ne.symm
    field_simp
  · intro k hk
    unfold spectrum_product
    rw [half_spectrum_length, map_range_getD_lt _ _ _ _ (by omega)]
    unfold half_spectrum
    rw [map_range_getD_lt _ _ _ _ (by omega), map_range_getD_lt _ _ _ _ (by omega)]

/-! ## `initialize_hmat` and `hmatmul` on a valid window -/

/-- The circulant that `_initialize_circulant` builds for window `L`. -/
theorem initialize_hmat_ok {R : Type} [Ring R] (tw : Nat → Nat → fftw_complex R)
    (F : List R) (L : Nat) (h1 : 1 ≤ L) (h2 : L ≤ F.length) :
    (initialize_hmat tw F (L : Int)).value
      = .ok { normal := built_circulant tw F L
              transposed := built_circulant tw F (F.length - L + 1) } := by
  have e : (F.length : Int) - (L : Int) + 1 = ((F.length - L + 1 : Nat) : Int) := by omega
  unfold initialize_hmat
  simp only []
  rw [e, initialize_circulant_ok tw F L h1 h2]
  simp only []
  rw [initialize_circulant_ok tw F (F.length - L + 1) (by omega) (by omega)]

theorem fftw_malloc_drop {α : Type} (n : Nat) :
    (fftw_malloc (n : Int) : List (Option α)).drop n = [] := by
  apply List.drop_of_length_le
  simp [fftw_malloc]

/-- On a circulant built for window `W`, a call of `hmatmul` that selects it
and passes the length check computes `circulant_apply` on the first cells of
the memory behind `rV`. -/
theorem hmatmul_value_built {R : Type} [Field R] (tw : Nat → Nat → fftw_complex R)
    (F : List R) (W : Nat) (h1 : 1 ≤ W) (h2 : W ≤ F.length)
    (rs : List R) (rest : List (Option R)) (hr : rs.length = F.length - W + 1) :
    (_hmatmul tw (fftw_malloc (W : Int)) (REAL rs ++ rest) (rs.length : Int)
        (built_circulant tw F W)).value
      = .ok (REAL (circulant_apply tw F.length W
          (half_spectrum tw F.length (circulant_column F W)) rs)) := by
  have eN : rs.length + W - 1 = F.length := by omega
  have := hmatmul_core_ok tw (built_circulant tw F W) W rs rest
    (half_spectrum tw F.length (circulant_column F W)) [] (fftw_malloc (W : Int))
    rfl h1 (by omega) (by rw [eN]; rfl) (by rw [eN]; rfl) (by simp [built_circulant])
    (by rw [eN, half_spectrum_length]) (by simp [fftw_malloc])
  rw [this, fftw_malloc_drop, List.append_nil, eN]

/-! ## The numerical code raises no R error -/

theorem no_R_error_ok {α : Type} (a : α) : no_R_error (Except.ok a : Except Fault α) := by
  intro e h
  cases h

theorem no_R_error_bind {α β : Type} (x : Except Fault α) (f : α → Except Fault β)
    (hx : no_R_error x) (hf : ∀ a, no_R_error (f a)) : no_R_error (x >>= f) := by
  cases x with
  | error e0 =>
    intro e h
    apply hx e
    cases h
    rfl
  | ok a => exact hf a

theorem no_R_error_load {α : Type} (buf : List (Option α)) (i : Int) :
    no_R_error (load buf i) := by
  intro e h
  unfold load at h
  split_ifs at h
  · cases h; rfl
  · split at h
    · cases h; rfl
    · cases h; rfl
    · cases h

theorem no_R_error_store {α : Type} (buf : List (Option α)) (i : Int) (x : α) :
    no_R_error (store buf i x) := by
  intro e h
  unfold store at h
  split_ifs at h
  cases h
  rfl

theorem no_R_error_foldlM {σ β : Type} (body : σ → β → Except Fault σ)
    (hb : ∀ s t, no_R_error (body s t)) (l : List β) (s : σ) :
    no_R_error (l.foldlM body s) := by
  induction l generalizing s with
  | nil => exact no_R_error_ok s
  | cons x l ih =>
    rw [List.foldlM_cons]
    exact no_R_error_bind _ _ (hb s x) ih

theorem no_R_error_for_loop {σ : Type} (a b : Int) (body : σ → Int → Except Fault σ)
    (hb : ∀ s i, no_R_error (body s i)) (s : σ) : no_R_error (for_loop a b body s) :=
  no_R_error_foldlM _ (fun s _ => hb s _) _ s

theorem no_R_error_memset {α : Type} [Zero α] (buf : List (Option α)) (start count : Int) :
    no_R_error (memset buf start count) := by
  unfold memset
  split_ifs
  · intro e h; cases h; rfl
  · exact no_R_error_for_loop _ _ _ (fun s i => no_R_error_store s i 0) buf

theorem no_R_error_load_cells {α : Type} (buf : List (Option α)) (n : Nat) :
    no_R_error (load_cells buf n) := by
  induction n generalizing buf with
  | zero =>
    intro e h
    simp [load_cells] at h
  | succ n ih =>
    cases buf with
    | nil => intro e h; cases h; rfl
    | cons c rest =>
      cases c with
      | none => intro e h; cases h; rfl
      | some x =>
        intro e h
        simp only [load_cells] at h
        split at h
        · cases h
        · rename_i e1 he1
          cases h
          exact ih rest e he1

theorem no_R_error_store_cells {α : Type} (buf : List (Option α)) (ys : List α) :
    no_R_error (store_cells buf ys) := by
  intro e h
  unfold store_cells at h
  split_ifs at h
  cases h
  rfl

theorem no_R_error_r2c {R : Type} [Ring R] (tw : Nat → Nat → fftw_complex R) (n : Int)
    (inp : List (Option R)) (out : List (Option (fftw_complex R))) :
    no_R_error (fftw_execute_dft_r2c tw n inp out) := by
  unfold fftw_execute_dft_r2c
  split_ifs
  · intro e h; cases h; rfl
  · exact no_R_error_bind _ _ (no_R_error_load_cells _ _) (fun _ => no_R_error_store_cells _ _)

theorem no_R_error_c2r {R : Type} [Ring R] (tw : Nat → Nat → fftw_complex R) (n : Int)
    (inp : List (Option (fftw_complex R))) (out : List (Option R)) :
    no_R_error (fftw_execute_dft_c2r tw n inp out) := by
  unfold fftw_execute_dft_c2r
  split_ifs
  · intro e h; cases h; rfl
  · exact no_R_error_bind _ _ (no_R_error_load_cells _ _) (fun _ => no_R_error_store_cells _ _)

theorem no_R_error_hmatmul_fill {R : Type} [Zero R] (v : List (Option R)) (K L : Int) :
    no_R_error (_hmatmul_fill v K L) := by
  unfold _hmatmul_fill
  exact no_R_error_bind _ _
    (no_R_error_for_loop _ _ _
      (fun s i => no_R_error_bind _ _ (no_R_error_load _ _) (fun _ => no_R_error_store _ _ _)) _)
    (fun _ => no_R_error_memset _ _ _)

/-- The core multiply raises no R error. -/
theorem no_R_error_hmatmul_core {R : Type} [Field R] (tw : Nat → Nat → fftw_complex R)
    (out v : List (Option R)) (K : Int) (C : toeplitz_circulant R) :
    no_R_error (_hmatmul tw out v K C).value := by
  unfold _hmatmul
  refine no_R_error_bind _ _ (no_R_error_hmatmul_fill _ _ _) (fun _ => ?_)
  refine no_R_error_bind _ _ (no_R_error_r2c _ _ _ _) (fun _ => ?_)
  refine no_R_error_bind _ _ (no_R_error_for_loop _ _ _ (fun s i => ?_) _) (fun _ => ?_)
  · exact no_R_error_bind _ _ (no_R_error_load _ _) (fun _ =>
      no_R_error_bind _ _ (no_R_error_load _ _) (fun _ => no_R_error_store _ _ _))
  · refine no_R_error_bind _ _ (no_R_error_c2r _ _ _ _) (fun _ => ?_)
    exact no_R_error_for_loop _ _ _
      (fun s i => no_R_error_bind _ _ (no_R_error_load _ _) (fun _ => no_R_error_store _ _ _)) _

/-- Building a circulant raises no R error. -/
theorem no_R_error_initialize_circulant {R : Type} [Ring R] (tw : Nat → Nat → fftw_complex R)
    (F : List (Option R)) (N L : Int) :
    no_R_error (_initialize_circulant tw F N L).value := by
  unfold _initialize_circulant
  refine no_R_error_bind _ _ ?_ (fun _ => ?_)
  · unfold _initialize_circulant_fill
    exact no_R_error_bind _ _
      (no_R_error_for_loop _ _ _
        (fun s i => no_R_error_bind _ _ (no_R_error_load _ _) (fun _ => no_R_error_store _ _ _)) _)
      (fun _ => no_R_error_for_loop _ _ _
        (fun s i => no_R_error_bind _ _ (no_R_error_load _ _) (fun _ => no_R_error_store _ _ _)) _)
  · exact no_R_error_bind _ _ (no_R_error_r2c _ _ _ _) (fun _ => no_R_error_ok _)

/-! ## `hmatmul` on an operator built by `initialize_hmat` -/

theorem hankel_tmul_eq {R : Type} [Ring R] (S : List R) (L : Nat) (h1 : 1 ≤ L)
    (h2 : L ≤ S.length) (w : List R) :
    hankel_tmul S L w = hankel_mul S (S.length - L + 1) w := by
  unfold hankel_tmul hankel_mul
  have e : S.length - (S.length - L + 1) + 1 = L := by omega
  rw [e]
  apply List.map_congr_left
  intro j _
  apply Finset.sum_congr rfl
  intro i _
  rw [add_comm]

theorem circulant_apply_length {R : Type} [Field R] (tw : Nat → Nat → fftw_complex R)
    (N L : Nat) (As : List (fftw_complex R)) (vs : List R) :
    (circulant_apply tw N L As vs).length = L := by
  simp [circulant_apply]

theorem allocVector_natCast {α : Type} (W : Nat) :
    (allocVector (W : Int) : Except Fault (List (Option α))) = .ok (fftw_malloc (W : Int)) := by
  simp [allocVector, fftw_malloc]

/-- A call of `hmatmul` on the operator built for `1 ≤ L ≤ N` that passes the
length check applies the selected circulant to the memory behind `rV`. -/
theorem hmatmul_built {R : Type} [Field R] (tw : Nat → Nat → fftw_complex R)
    (F : List R) (L : Nat) (h1 : 1 ≤ L) (h2 : L ≤ F.length) (t : Bool)
    (v rs : List R) (rest : List (Option R))
    (hv : v.length = if t then L else F.length - L + 1) (hr : rs.length = v.length) :
    (hmatmul tw (REAL rs ++ rest)
        { normal := built_circulant tw F L
          transposed := built_circulant tw F (F.length - L + 1) } v t).value
      = .ok (REAL (circulant_apply tw F.length (if t then F.length - L + 1 else L)
          (half_spectrum tw F.length
            (circulant_column F (if t then F.length - L + 1 else L))) rs)) := by
  cases t with
  | false =>
    simp only [Bool.false_eq_true, if_false] at hv ⊢
    unfold hmatmul
    simp only [Bool.false_eq_true, if_false]
    have hc : ¬ ((v.length : Int) + (built_circulant tw F L).window - 1
        ≠ (built_circulant tw F L).length) := by
      simp only [built_circulant]; omega
    rw [if_neg hc, ← hr]
    simp only [built_circulant, allocVector_natCast]
    exact hmatmul_value_built tw F L h1 h2 rs rest (by omega)
  | true =>
    simp only [if_true] at hv ⊢
    unfold hmatmul
    simp only [if_true]
    have hc : ¬ ((v.length : Int) + (built_circulant tw F (F.length - L + 1)).window - 1
        ≠ (built_circulant tw F (F.length - L + 1)).length) := by
      simp only [built_circulant]; omega
    rw [if_neg hc, ← hr]
    simp only [built_circulant, allocVector_natCast]
    exact hmatmul_value_built tw F (F.length - L + 1) (by omega) (by omega) rs rest (by omega)

/-- With the exact DFT that call returns the dense product of the Hankel
matrix, or of its transpose, with the memory behind `rV`. -/
theorem hmatmul_built_exact (tw : Nat → Nat → fftw_complex ℝ) (hE : ExactDFT tw)
    (F : List ℝ) (L : Nat) (h1 : 1 ≤ L) (h2 : L ≤ F.length) (t : Bool)
    (v rs : List ℝ) (rest : List (Option ℝ))
    (hv : v.length = if t then L else F.length - L + 1) (hr : rs.length = v.length) :
    (hmatmul tw (REAL rs ++ rest)
        { normal := built_circulant tw F L
          transposed := built_circulant tw F (F.length - L + 1) } v t).value
      = .ok (REAL (if t then hankel_tmul F L rs else hankel_mul F L rs)) := by
  rw [hmatmul_built tw F L h1 h2 t v rs rest hv hr]
  cases t with
  | false =>
    simp only [Bool.false_eq_true, if_false] at hv ⊢
    rw [circulant_apply_eq_hankel tw hE F rs L h1 h2 (by omega)]
  | true =>
    simp only [if_true] at hv ⊢
    rw [circulant_apply_eq_hankel tw hE F rs (F.length - L + 1) (by omega) (by omega) (by omega),
      hankel_tmul_eq F L h1 h2]

theorem exactDFT_table :
    ExactDFT (fun n m => ⟨Real.cos (2 * Real.pi * (m : ℝ) / (n : ℝ)),
      Real.sin (2 * Real.pi * (m : ℝ) / (n : ℝ))⟩) :=
  fun _ _ => rfl

/-! ## The core multiply is linear -/

theorem zipWith_getD_linear {R : Type} [Ring R] (a b : R) (v1 v2 : List R)
    (h : v1.length = v2.length) (j : Nat) :
    (List.zipWith (fun x y => a * x + b * y) v1 v2).getD j 0
      = a * v1.getD j 0 + b * v2.getD j 0 := by
  simp only [List.getD_eq_getElem?_getD, List.getElem?_zipWith]
  by_cases hj : j < v1.length
  · have hj2 : j < v2.length := by omega
    simp [List.getElem?_eq_getElem hj, List.getElem?_eq_getElem hj2]
  · have e1 : v1[j]? = none := List.getElem?_eq_none (by omega)
    have e2 : v2[j]? = none := List.getElem?_eq_none (by omega)
    simp [e1, e2]

/-- The dense Hankel product is linear in the vector. -/
theorem hankel_mul_linear {R : Type} [CommRing R] (S : List R) (L : Nat) (a b : R)
    (v1 v2 : List R) (h : v1.length = v2.length) :
    hankel_mul S L (List.zipWith (fun x y => a * x + b * y) v1 v2)
      = List.zipWith (fun x y => a * x + b * y) (hankel_mul S L v1) (hankel_mul S L v2) := by
  unfold hankel_mul
  rw [List.zipWith_map, List.zipWith_same]
  apply List.map_congr_left
  intro i _
  simp only [Function.comp, zipWith_getD_linear a b v1 v2 h, Finset.mul_sum,
    ← Finset.sum_add_distrib]
  apply Finset.sum_congr rfl
  intro j _
  ring

/-- With the exact DFT the core multiply `_hmatmul` is linear in the vector it
is given: on the circulant built for `1 ≤ L ≤ N` it maps `a·v1 + b·v2` to
`a·y1 + b·y2`, where `y1` and `y2` are its results on `v1` and `v2`. -/
theorem core_apply_linear (tw : Nat → Nat → fftw_complex ℝ) (hE : ExactDFT tw)
    (S : List ℝ) (L : Nat) (h1 : 1 ≤ L) (h2 : L ≤ S.length) (a b : ℝ) (v1 v2 : List ℝ)
    (hK1 : v1.length = S.length - L + 1) (hK2 : v2.length = S.length - L + 1) :
    ∃ y1 y2 : List ℝ,
      (_hmatmul tw (fftw_malloc (L : Int)) (REAL v1) (v1.length : Int)
          (built_circulant tw S L)).value = .ok (REAL y1)
      ∧ (_hmatmul tw (fftw_malloc (L : Int)) (REAL v2) (v2.length : Int)
          (built_circulant tw S L)).value = .ok (REAL y2)
      ∧ (_hmatmul tw (fftw_malloc (L : Int))
            (REAL (List.zipWith (fun x y => a * x + b * y) v1 v2))
            ((List.zipWith (fun x y => a * x + b * y) v1 v2).length : Int)
            (built_circulant tw S L)).value
          = .ok (REAL (List.zipWith (fun x y => a * x + b * y) y1 y2)) := by
  have key : ∀ v : List ℝ, v.length = S.length - L + 1 →
      (_hmatmul tw (fftw_malloc (L : Int)) (REAL v) (v.length : Int)
          (built_circulant tw S L)).value = .ok (REAL (hankel_mul S L v)) := by
    intro v hv
    have := hmatmul_value_built tw S L h1 h2 v [] hv
    rw [List.append_nil] at this
    rw [this, circulant_apply_eq_hankel tw hE S v L h1 h2 hv]
  refine ⟨_, _, key v1 hK1, key v2 hK2, ?_⟩
  rw [key _ (by simp [hK1, hK2]), hankel_mul_linear S L a b v1 v2 (by omega)]

/-! ## The claims -/

/-- C1 (code bug).  The scenario of the specification, `S = [1,2,3,4,5]`,
`L = 3`, `v = [1,0,0]`, run through `initialize_hmat` and `hmatmul` with
`use_transpose = false` and the exact DFT: `hmatmul` hands the unassigned
pointer `rV` to `_hmatmul`, so with `[0,0,1]` in the memory behind `rV` the
call returns `H · [0,0,1] = [3,4,5]`, not the dense product
`H · v = [1,2,3]`. -/
theorem hmatmul_normal_multiplies_rV :
    ∃ tw : Nat → Nat → fftw_complex ℝ, ExactDFT tw ∧
      ∃ h, (initialize_hmat tw [1, 2, 3, 4, 5] 3).value = .ok h
        ∧ (hmatmul tw (REAL [0, 0, 1]) h [1, 0, 0] false).value = .ok (REAL [3, 4, 5])
        ∧ hankel_mul ([1, 2, 3, 4, 5] : List ℝ) 3 [1, 0, 0] = [1, 2, 3] := by
  refine ⟨_, exactDFT_table, _, initialize_hmat_ok _ [1, 2, 3, 4, 5] 3 (by decide) (by decide),
    ?_, ?_⟩
  · have := hmatmul_built_exact _ exactDFT_table [1, 2, 3, 4, 5] 3 (by decide) (by decide)
      false [1, 0, 0] [0, 0, 1] [] rfl rfl
    rw [List.append_nil] at this
    rw [this]
    simp [hankel_mul, Finset.sum_range_succ, List.range_succ]
  · simp [hankel_mul, Finset.sum_range_succ, List.range_succ]

/-- C2 (code bug).  The same scenario with `use_transpose = true` and
`w = [1,0,0]`: with `[0,0,1]` in the memory behind `rV` the call returns
`Hᵀ · [0,0,1] = [3,4,5]`, not the dense product `Hᵀ · w = [1,2,3]`. -/
theorem hmatmul_transposed_multiplies_rV :
    ∃ tw : Nat → Nat → fftw_complex ℝ, ExactDFT tw ∧
      ∃ h, (initialize_hmat tw [1, 2, 3, 4, 5] 3).value = .ok h
        ∧ (hmatmul tw (REAL [0, 0, 1]) h [1, 0, 0] true).value = .ok (REAL [3, 4, 5])
        ∧ hankel_tmul ([1, 2, 3, 4, 5] : List ℝ) 3 [1, 0, 0] = [1, 2, 3] := by
  refine ⟨_, exactDFT_table, _, initialize_hmat_ok _ [1, 2, 3, 4, 5] 3 (by decide) (by decide),
    ?_, ?_⟩
  · have := hmatmul_built_exact _ exactDFT_table [1, 2, 3, 4, 5] 3 (by decide) (by decide)
      true [1, 0, 0] [0, 0, 1] [] rfl rfl
    rw [List.append_nil] at this
    rw [this]
    simp [hankel_tmul, Finset.sum_range_succ, List.range_succ]
  · simp [hankel_tmul, Finset.sum_range_succ, List.range_succ]

/-- C3 (counterexample).  For the series `[1,2,3,4]` and the window `L = 0`
construction is not rejected: the normal circulant is built with window `0`
and length `4`, nine buffers and plans are allocated, and the run then reads
the series out of bounds while filling the transposed circulant. -/
theorem initialize_hmat_window_zero_not_rejected :
    (∃ C, (_initialize_circulant tw_rat (REAL [1, 2, 3, 4]) 4 0).value = .ok C
        ∧ C.window = 0 ∧ C.length = 4)
      ∧ (initialize_hmat tw_rat [1, 2, 3, 4] 0).allocs
          = [.Calloc_hankel_matrix, .fftw_malloc_double 4, .fftw_malloc_complex 3,
             .fftw_plan_dft_r2c_1d 4, .fftw_plan_dft_c2r_1d 4,
             .fftw_malloc_double 4, .fftw_malloc_complex 3,
             .fftw_plan_dft_r2c_1d 4, .fftw_plan_dft_c2r_1d 4]
      ∧ (initialize_hmat tw_rat [1, 2, 3, 4] 0).value = .error .out_of_bounds :=
  ⟨⟨_, rfl, rfl, rfl⟩, rfl, rfl⟩

/-- C3 (amended).  `initialize_hmat` does not validate the window: for every
series and every window, also `L < 1` and `L > N`, it raises no error, and it
allocates the operator struct and the two buffers and two plans of the normal
circulant, sized for `N`, whatever the window is. -/
theorem initialize_hmat_never_rejects {R : Type} [Ring R] (tw : Nat → Nat → fftw_complex R)
    (S : List R) (L : Int) :
    no_R_error (initialize_hmat tw S L).value
      ∧ ∃ rest, (initialize_hmat tw S L).allocs
          = [.Calloc_hankel_matrix, .fftw_malloc_double (S.length : Int),
             .fftw_malloc_complex ((S.length : Int).tdiv 2 + 1),
             .fftw_plan_dft_r2c_1d (S.length : Int),
             .fftw_plan_dft_c2r_1d (S.length : Int)] ++ rest := by
  have hn := no_R_error_initialize_circulant tw (REAL S) (S.length : Int) L
  have ht := no_R_error_initialize_circulant tw (REAL S) (S.length : Int)
    ((S.length : Int) - L + 1)
  unfold initialize_hmat
  simp only []
  cases h1 : (_initialize_circulant tw (REAL S) (S.length : Int) L).value with
  | error e =>
    dsimp only
    refine ⟨fun e2 h => ?_, [], by simp [_initialize_circulant]⟩
    cases h
    exact hn e h1
  | ok n =>
    dsimp only
    cases h2 : (_initialize_circulant tw (REAL S) (S.length : Int)
        ((S.length : Int) - L + 1)).value with
    | error e =>
      dsimp only
      refine ⟨fun e2 h => ?_, _, by simp [_initialize_circulant]; rfl⟩
      cases h
      exact ht e h2
    | ok t =>
      dsimp only
      exact ⟨no_R_error_ok _, _, by simp [_initialize_circulant]; rfl⟩

/-- C4.  Length validation: `hmatmul` raises the invalid-length error exactly
when `length(v) + C.window - 1 != C.length` for the selected circulant `C`,
and then it has allocated nothing: neither the output vector nor the scratch
buffers of `_hmatmul` exist, so the core multiply has not run. -/
theorem hmatmul_length_check {R : Type} [Field R] (tw : Nat → Nat → fftw_complex R)
    (rV : List (Option R)) (h : hankel_matrix R) (v : List R) (t : Bool) :
    ((hmatmul tw rV h v t).value = .error .invalid_length_of_input_vector
        ↔ (v.length : Int) + (if t then h.transposed else h.normal).window - 1
            ≠ (if t then h.transposed else h.normal).length)
      ∧ ((v.length : Int) + (if t then h.transposed else h.normal).window - 1
            ≠ (if t then h.transposed else h.normal).length
          → (hmatmul tw rV h v t).allocs = []) := by
  unfold hmatmul
  simp only []
  generalize (if t = true then h.transposed else h.normal) = C
  by_cases hc : (v.length : Int) + C.window - 1 ≠ C.length
  · rw [if_pos hc]
    exact ⟨⟨fun _ => hc, fun _ => rfl⟩, fun _ => rfl⟩
  · rw [if_neg hc]
    refine ⟨⟨fun hv => ?_, fun hn => absurd hn hc⟩, fun hn => absurd hn hc⟩
    cases ha : (allocVector C.window : Except Fault (List (Option R))) with
    | error e =>
      rw [ha] at hv
      dsimp only at hv
      unfold allocVector at ha
      by_cases hw : C.window < 0
      · rw [if_pos hw] at ha
        cases ha
        cases hv
      · rw [if_neg hw] at ha
        cases ha
    | ok Y =>
      rw [ha] at hv
      dsimp only at hv
      have := no_R_error_hmatmul_core tw Y rV _ _ _ hv
      cases this

/-! ## Calls of `hmatmul` and the memory behind `rV` -/

/-- Every branch of `hmatmul` leaves the operator as it was. -/
theorem hmatmul_hmat {R : Type} [Field R] (tw : Nat → Nat → fftw_complex R)
    (rV : List (Option R)) (h : hankel_matrix R) (v : List R) (t : Bool) :
    (hmatmul tw rV h v t).hmat = h := by
  unfold hmatmul
  simp only []
  generalize (if t = true then h.transposed else h.normal) = C
  by_cases hc : (v.length : Int) + C.window - 1 ≠ C.length
  · rw [if_pos hc]
  · rw [if_neg hc]
    split <;> rfl

/-- The reversal loop of `_hmatmul` starts with the read of `v[K-1]`: when
that read faults, the fill stops with the same fault. -/
theorem hmatmul_fill_first_read {R : Type} [Zero R] (v : List (Option R)) (K L : Int)
    (hK : 1 ≤ K) (e : Fault) (he : load v (K - 1) = .error e) :
    _hmatmul_fill v K L = .error e := by
  unfold _hmatmul_fill for_loop
  simp only []
  obtain ⟨n, hn⟩ : ∃ n : Nat, (K - 0).toNat = n + 1 := ⟨K.toNat - 1, by omega⟩
  rw [hn, List.range_succ_eq_map, List.foldlM_cons]
  have e0 : K - (0 + ((0 : Nat) : Int)) - 1 = K - 1 := by omega
  rw [e0, he]
  rfl

/-- A fault of the first read of `_hmatmul` is the outcome of the call. -/
theorem hmatmul_core_first_read {R : Type} [Field R] (tw : Nat → Nat → fftw_complex R)
    (out v : List (Option R)) (K : Int) (C : toeplitz_circulant R)
    (hK : 1 ≤ K) (e : Fault) (he : load v (K - 1) = .error e) :
    (_hmatmul tw out v K C).value = .error e := by
  unfold _hmatmul
  simp only []
  rw [hmatmul_fill_first_read v K C.window hK e he]
  rfl

/-- A read past the last cell of a buffer is out of bounds. -/
theorem load_past_end {α : Type} (buf : List (Option α)) (i : Int) (h0 : 0 ≤ i)
    (h : (buf.length : Int) ≤ i) : load buf i = .error .out_of_bounds := by
  unfold load
  rw [if_neg (by omega)]
  have : buf[i.toNat]? = none := List.getElem?_eq_none (by omega)
  rw [this]

/-- C6 (code bug).  `hmatmul` leaves the operator as it was, after a
successful and after a failed call alike, but a repeated call with the same
operator, vector and flag need not return the same result: the vector that is
multiplied is the memory behind the unassigned pointer `rV`, not `v`.  For
`S = [1,2,3,4]`, `L = 2`, `v = [1,0,0]`, without transposition, the call with
`[0,1,5]` behind `rV` returns `[17,23]`, and the same call again, on the
operator it left behind, with `[0,0,7]` behind `rV` returns `[21,28]`. -/
theorem hmatmul_repeated_call_differs :
    ∃ tw : Nat → Nat → fftw_complex ℝ, ExactDFT tw ∧
      (∀ (rV : List (Option ℝ)) (h : hankel_matrix ℝ) (v : List ℝ) (t : Bool),
          (hmatmul tw rV h v t).hmat = h)
        ∧ ∃ h, (initialize_hmat tw [1, 2, 3, 4] 2).value = .ok h
          ∧ (hmatmul tw (REAL [0, 1, 5]) h [1, 0, 0] false).value = .ok (REAL [17, 23])
          ∧ (hmatmul tw (REAL [0, 0, 7])
              (hmatmul tw (REAL [0, 1, 5]) h [1, 0, 0] false).hmat [1, 0, 0] false).value
              = .ok (REAL [21, 28])
          ∧ (hmatmul tw (REAL [0, 0, 7])
              (hmatmul tw (REAL [0, 1, 5]) h [1, 0, 0] false).hmat [1, 0, 0] false).value
              ≠ (hmatmul tw (REAL [0, 1, 5]) h [1, 0, 0] false).value := by
  obtain ⟨tw, hE⟩ : ∃ tw : Nat → Nat → fftw_complex ℝ, ExactDFT tw := ⟨_, exactDFT_table⟩
  have k1 : (hmatmul tw (REAL [0, 1, 5])
      { normal := built_circulant tw [1, 2, 3, 4] 2
        transposed := built_circulant tw [1, 2, 3, 4] (([1, 2, 3, 4] : List ℝ).length - 2 + 1) }
      [1, 0, 0] false).value = .ok (REAL [17, 23]) := by
    have := hmatmul_built_exact tw hE [1, 2, 3, 4] 2 (by decide) (by decide)
      false [1, 0, 0] [0, 1, 5] [] rfl rfl
    rw [List.append_nil] at this
    rw [this]
    simp [hankel_mul, Finset.sum_range_succ, List.range_succ]
    norm_num
  have k2 : (hmatmul tw (REAL [0, 0, 7])
      { normal := built_circulant tw [1, 2, 3, 4] 2
        transposed := built_circulant tw [1, 2, 3, 4] (([1, 2, 3, 4] : List ℝ).length - 2 + 1) }
      [1, 0, 0] false).value = .ok (REAL [21, 28]) := by
    have := hmatmul_built_exact tw hE [1, 2, 3, 4] 2 (by decide) (by decide)
      false [1, 0, 0] [0, 0, 7] [] rfl rfl
    rw [List.append_nil] at this
    rw [this]
    simp [hankel_mul, Finset.sum_range_succ, List.range_succ]
    norm_num
  refine ⟨tw, hE, hmatmul_hmat tw, _,
    initialize_hmat_ok tw [1, 2, 3, 4] 2 (by decide) (by decide), k1, ?_, ?_⟩
  · rw [hmatmul_hmat, k2]
  · rw [hmatmul_hmat, k1, k2]
    intro hne
    have h17 : (17 : ℝ) = 21 := by
      simpa [REAL] using hne.symm
    norm_num at h17

/-- C7 (code bug).  A call that passes the length check need not return a
vector at all.  On the operator built from `(S, L)` with `1 ≤ L ≤ N`, for
every flag and every vector `v` that passes the length check, `hmatmul` reads
`length(v)` cells through the unassigned pointer `rV`; when fewer cells than
that are readable behind `rV`, the first read of `_hmatmul` is out of bounds
and no vector of the selected window's length is returned. -/
theorem hmatmul_returns_no_vector {R : Type} [Field R] (tw : Nat → Nat → fftw_complex R)
    (S : List R) (L : Nat) (h1 : 1 ≤ L) (h2 : L ≤ S.length) (h : hankel_matrix R)
    (hh : (initialize_hmat tw S (L : Int)).value = .ok h) (t : Bool) (v : List R)
    (rV : List (Option R))
    (hv : (v.length : Int) + (if t then h.transposed else h.normal).window - 1
        = (if t then h.transposed else h.normal).length)
    (hr : rV.length < v.length) :
    (hmatmul tw rV h v t).value = .error .out_of_bounds := by
  rw [initialize_hmat_ok tw S L h1 h2] at hh
  cases hh
  have hK : (1 : Int) ≤ (v.length : Int) := by omega
  have hl : load rV ((v.length : Int) - 1) = .error .out_of_bounds :=
    load_past_end rV _ (by omega) (by omega)
  unfold hmatmul
  simp only []
  rw [if_neg (by simpa using hv)]
  cases t with
  | false =>
    simp only [Bool.false_eq_true, if_false, built_circulant, allocVector_natCast]
    exact hmatmul_core_first_read tw _ rV _ _ hK _ hl
  | true =>
    simp only [if_true, built_circulant, allocVector_natCast]
    exact hmatmul_core_first_read tw _ rV _ _ hK _ hl

/-- C7 at `S = [1,2,3,4]`, `L = 2`, `v = [1,0,0]`, without transposition, with
no readable cell behind `rV`: the operator is built, the length check
`3 + 2 - 1 = 4` passes, and the call stops out of bounds. -/
theorem hmatmul_returns_no_vector_witness :
    ((initialize_hmat tw_rat [1, 2, 3, 4] ((2 : Nat) : Int)).value
          = .ok { normal := built_circulant tw_rat [1, 2, 3, 4] 2
                  transposed := built_circulant tw_rat [1, 2, 3, 4] 3 }
        ∧ (([1, 0, 0] : List ℚ).length : Int) + (built_circulant tw_rat [1, 2, 3, 4] 2).window - 1
            = (built_circulant tw_rat [1, 2, 3, 4] 2).length
        ∧ ([] : List (Option ℚ)).length < ([1, 0, 0] : List ℚ).length)
      ∧ (hmatmul tw_rat []
            { normal := built_circulant tw_rat [1, 2, 3, 4] 2
              transposed := built_circulant tw_rat [1, 2, 3, 4] 3 } [1, 0, 0] false).value
          = .error .out_of_bounds :=
  ⟨⟨rfl, rfl, by decide⟩,
    hmatmul_returns_no_vector tw_rat [1, 2, 3, 4] 2 (by decide) (by decide) _ rfl false
      [1, 0, 0] [] rfl (by decide)⟩

/-- C8.  Structure of a built operator: for `1 ≤ L ≤ N`, `initialize_hmat`
returns an operator with `normal.window = L`, `transposed.window = N - L + 1`
and both lengths `N`, so each length is window plus co-window minus one. -/
theorem initialize_hmat_structure {R : Type} [Ring R] (tw : Nat → Nat → fftw_complex R)
    (S : List R) (L : Nat) (h1 : 1 ≤ L) (h2 : L ≤ S.length) :
    ∃ h, (initialize_hmat tw S (L : Int)).value = .ok h
      ∧ h.normal.window = (L : Int)
      ∧ h.transposed.window = (S.length : Int) - (L : Int) + 1
      ∧ h.normal.length = (S.length : Int)
      ∧ h.transposed.length = (S.length : Int)
      ∧ h.normal.length = h.transposed.window + h.normal.window - 1
      ∧ h.transposed.length = h.normal.window + h.transposed.window - 1 := by
  refine ⟨_, initialize_hmat_ok tw S L h1 h2, rfl, ?_, rfl, rfl, ?_, ?_⟩
  · simp only [built_circulant]; omega
  · simp only [built_circulant]; omega
  · simp only [built_circulant]; omega

/-- C8 at `S = [1,2,3,4]`, `L = 2`. -/
theorem initialize_hmat_structure_witness :
    (1 ≤ 2 ∧ 2 ≤ ([1, 2, 3, 4] : List ℚ).length)
      ∧ ∃ h, (initialize_hmat tw_rat [1, 2, 3, 4] ((2 : Nat) : Int)).value = .ok h
        ∧ h.normal.window = ((2 : Nat) : Int)
        ∧ h.transposed.window = (([1, 2, 3, 4] : List ℚ).length : Int) - ((2 : Nat) : Int) + 1
        ∧ h.normal.length = (([1, 2, 3, 4] : List ℚ).length : Int)
        ∧ h.transposed.length = (([1, 2, 3, 4] : List ℚ).length : Int)
        ∧ h.normal.length = h.transposed.window + h.normal.window - 1
        ∧ h.transposed.length = h.normal.window + h.transposed.window - 1 :=
  ⟨⟨by decide, by decide⟩,
    initialize_hmat_structure tw_rat [1, 2, 3, 4] 2 (by decide) (by decide)⟩

/-- C5 (code bug).  Linearity fails for the public `hmatmul`: in the scenario
`S = [1,2,3,4,5]`, `L = 3`, without transposition, with `[0,0,1]` in the
memory behind `rV`, the calls on `v1 = [1,0,0]`, on `v2 = [0,1,0]` and on
`1·v1 + 1·v2 = [1,1,0]` all return `[3,4,5]`, and `[3,4,5]` is not
`1·[3,4,5] + 1·[3,4,5]`. -/
theorem hmatmul_not_linear_in_v :
    ∃ tw : Nat → Nat → fftw_complex ℝ, ExactDFT tw ∧
      ∃ h, (initialize_hmat tw [1, 2, 3, 4, 5] 3).value = .ok h
        ∧ (hmatmul tw (REAL [0, 0, 1]) h [1, 0, 0] false).value = .ok (REAL [3, 4, 5])
        ∧ (hmatmul tw (REAL [0, 0, 1]) h [0, 1, 0] false).value = .ok (REAL [3, 4, 5])
        ∧ (hmatmul tw (REAL [0, 0, 1]) h
            [1 * 1 + 1 * 0, 1 * 0 + 1 * 1, 1 * 0 + 1 * 0] false).value
            = .ok (REAL [3, 4, 5])
        ∧ ([3, 4, 5] : List ℝ) ≠ [1 * 3 + 1 * 3, 1 * 4 + 1 * 4, 1 * 5 + 1 * 5] := by
  obtain ⟨tw, hE⟩ : ∃ tw : Nat → Nat → fftw_complex ℝ, ExactDFT tw := ⟨_, exactDFT_table⟩
  have key : ∀ v : List ℝ, v.length = 3 →
      (hmatmul tw (REAL [0, 0, 1])
        { normal := built_circulant tw [1, 2, 3, 4, 5] 3
          transposed := built_circulant tw [1, 2, 3, 4, 5]
            (([1, 2, 3, 4, 5] : List ℝ).length - 3 + 1) }
        v false).value = .ok (REAL [3, 4, 5]) := by
    intro v hv
    have := hmatmul_built_exact tw hE [1, 2, 3, 4, 5] 3 (by decide) (by decide)
      false v [0, 0, 1] [] (by simpa using hv) (by simpa using hv.symm)
    rw [List.append_nil] at this
    rw [this]
    simp [hankel_mul, Finset.sum_range_succ, List.range_succ]
  refine ⟨tw, hE, _, initialize_hmat_ok tw [1, 2, 3, 4, 5] 3 (by decide) (by decide),
    key _ rfl, key _ rfl, key _ rfl, ?_⟩
  norm_num

/-- C9.  The core apply is the Hankel product: with the exact DFT, for
`1 ≤ L ≤ N` and `v` of length `K = N - L + 1`, `_initialize_circulant(S, N, L)`
returns a circulant `C`, and `_hmatmul(out, v, K, C)` writes
`sum over t < K of S[m+t] * v[t]` to `out[m]` for every `m < L` and leaves
the rest of `out` as it was. -/
theorem core_apply_is_hankel_product (tw : Nat → Nat → fftw_complex ℝ) (hE : ExactDFT tw)
    (S v : List ℝ) (L : Nat) (h1 : 1 ≤ L) (h2 : L ≤ S.length)
    (hK : v.length = S.length - L + 1) (out : List (Option ℝ)) (ho : L ≤ out.length) :
    ∃ C, (_initialize_circulant tw (REAL S) (S.length : Int) (L : Int)).value = .ok C
      ∧ (_hmatmul tw out (REAL v) (v.length : Int) C).value
          = .ok (REAL ((List.range L).map
              (fun m => ∑ t in range (S.length - L + 1), S.getD (m + t) 0 * v.getD t 0))
            ++ out.drop L) := by
  refine ⟨_, initialize_circulant_ok tw S L h1 h2, ?_⟩
  have eN : v.length + L - 1 = S.length := by omega
  have := hmatmul_core_ok tw (built_circulant tw S L) L v []
    (half_spectrum tw S.length (circulant_column S L)) [] out
    rfl h1 (by omega) (by rw [eN]; rfl) (by rw [eN]; rfl) (by simp [built_circulant])
    (by rw [eN, half_spectrum_length]) ho
  rw [List.append_nil] at this
  rw [this, eN, circulant_apply_eq_hankel tw hE S v L h1 h2 hK]
  rfl

/-- C9 at `S = [1,2,3,4,5]`, `L = 3`, `v = [1,0,0]`: the core apply writes
`[1,2,3]`. -/
theorem core_apply_is_hankel_product_witness :
    ∃ tw : Nat → Nat → fftw_complex ℝ, ExactDFT tw
      ∧ ∃ C, (_initialize_circulant tw (REAL [1, 2, 3, 4, 5]) 5 3).value = .ok C
        ∧ (_hmatmul tw (fftw_malloc 3) (REAL [1, 0, 0]) 3 C).value = .ok (REAL [1, 2, 3]) := by
  obtain ⟨C, hC, hm⟩ := core_apply_is_hankel_product _ exactDFT_table [1, 2, 3, 4, 5]
    [1, 0, 0] 3 (by decide) (by decide) rfl (fftw_malloc 3) (by decide)
  refine ⟨_, exactDFT_table, C, hC, ?_⟩
  have e : (([1, 0, 0] : List ℝ).length : Int) = 3 := rfl
  rw [e] at hm
  rw [hm]
  simp [REAL, fftw_malloc, Finset.sum_range_succ, List.range_succ]

/-- C10 (code bug).  `hmatmul` does not hand the caller's vector to the core:
a call that passes the length check returns what `_hmatmul` computes from the
memory behind the unassigned pointer `rV`, and the whole result is the same
for any other vector `v2` of the same length. -/
theorem hmatmul_hands_rV_to_core {R : Type} [Field R] (tw : Nat → Nat → fftw_complex R)
    (rV : List (Option R)) (h : hankel_matrix R) (v v2 : List R) (t : Bool)
    (hlen : v2.length = v.length)
    (hchk : (v.length : Int) + (if t then h.transposed else h.normal).window - 1
        = (if t then h.transposed else h.normal).length) :
    (hmatmul tw rV h v t).value
        = (allocVector (if t then h.transposed else h.normal).window >>= fun Y =>
            (_hmatmul tw Y rV (v.length : Int) (if t then h.transposed else h.normal)).value)
      ∧ hmatmul tw rV h v2 t = hmatmul tw rV h v t := by
  constructor
  · unfold hmatmul
    simp only []
    rw [if_neg (by simpa using hchk)]
    cases (allocVector (if t then h.transposed else h.normal).window :
        Except Fault (List (Option R))) <;> rfl
  · unfold hmatmul
    simp only []
    rw [hlen]

/-- C10 at `S = [1,2,3,4]`, `L = 2`, `v = [1,0,0]`, `v2 = [0,0,7]`, with
`[0,1,5]` in the memory behind `rV`: the call returns `H · [0,1,5] = [17,23]`
where the core applied to `v` gives `H · v = [1,2]`. -/
theorem hmatmul_hands_rV_to_core_witness :
    (initialize_hmat tw_rat [1, 2, 3, 4] 2).value
        = .ok { normal := built_circulant tw_rat [1, 2, 3, 4] 2
                transposed := built_circulant tw_rat [1, 2, 3, 4] 3 }
      ∧ (hmatmul tw_rat (REAL [0, 1, 5])
          { normal := built_circulant tw_rat [1, 2, 3, 4] 2
            transposed := built_circulant tw_rat [1, 2, 3, 4] 3 } [1, 0, 0] false).value
          = .ok (REAL [17, 23])
      ∧ (_hmatmul tw_rat (fftw_malloc 2) (REAL [1, 0, 0]) 3
          (built_circulant tw_rat [1, 2, 3, 4] 2)).value = .ok (REAL [1, 2])
      ∧ hmatmul tw_rat (REAL [0, 1, 5])
          { normal := built_circulant tw_rat [1, 2, 3, 4] 2
            transposed := built_circulant tw_rat [1, 2, 3, 4] 3 } [0, 0, 7] false
        = hmatmul tw_rat (REAL [0, 1, 5])
          { normal := built_circulant tw_rat [1, 2, 3, 4] 2
            transposed := built_circulant tw_rat [1, 2, 3, 4] 3 } [1, 0, 0] false :=
  ⟨rfl, by decide!, by decide!,
    (hmatmul_hands_rV_to_core tw_rat (REAL [0, 1, 5])
      { normal := built_circulant tw_rat [1, 2, 3, 4] 2
        transposed := built_circulant tw_rat [1, 2, 3, 4] 3 }
      [1, 0, 0] [0, 0, 7] false rfl rfl).2⟩

/-! ## The first column -/

theorem circulant_column_getD_mod {R : Type} [Zero R] (F : List R) (L j : Nat)
    (h2 : L ≤ F.length) (hj : j < F.length) :
    (circulant_column F L).getD j 0 = F.getD ((j + (F.length - L)) % F.length) 0 := by
  rw [circulant_column_getD F L j h2 hj]
  by_cases h : j < L
  · rw [if_pos h, Nat.mod_eq_of_lt (by omega)]
    congr 1
    omega
  · rw [if_neg h]
    have e2 : j + (F.length - L) = (j - L) + F.length := by omega
    rw [e2, Nat.add_mod_right, Nat.mod_eq_of_lt (by omega)]

/-- C11 (counterexample).  For `S = [1,2,3,4,5]` and `L = 3` the buffer that
`_initialize_circulant` fills is `[3,4,5,1,2]`: position 0 holds
`S[K-1] = S[2] = 3`, not `S[N-1] = S[4] = 5`. -/
theorem first_column_position_zero_counterexample :
    _initialize_circulant_fill (REAL ([1, 2, 3, 4, 5] : List ℚ)) 5 3
        = .ok (REAL [3, 4, 5, 1, 2])
      ∧ ([3, 4, 5, 1, 2] : List ℚ).getD 0 0 = 3
      ∧ ([1, 2, 3, 4, 5] : List ℚ).getD (5 - 1) 0 = 5
      ∧ (3 : ℚ) ≠ 5 :=
  ⟨rfl, rfl, rfl, by norm_num⟩

/-- C11 (amended).  For `1 ≤ L ≤ N` the buffer that `_initialize_circulant`
fills and transforms holds `S[K-1] = S[N-L]` at position 0; `S[N-1]` is held
at position `L - 1`. -/
theorem first_column_position_zero {R : Type} [Zero R] (S : List R) (L : Nat)
    (h1 : 1 ≤ L) (h2 : L ≤ S.length) :
    ∃ buf : List R,
      _initialize_circulant_fill (REAL S) (S.length : Int) (L : Int) = .ok (REAL buf)
        ∧ buf.length = S.length
        ∧ buf.getD 0 0 = S.getD (S.length - L) 0
        ∧ buf.getD (L - 1) 0 = S.getD (S.length - 1) 0 := by
  refine ⟨_, initialize_circulant_fill_ok S L h1 h2, circulant_column_length S L h2, ?_, ?_⟩
  · rw [circulant_column_getD S L 0 h2 (by omega), if_pos (by omega)]
    rfl
  · rw [circulant_column_getD S L (L - 1) h2 (by omega), if_pos (by omega)]
    congr 1
    omega

/-- C11 (amended) at `S = [1,2,3,4,5]`, `L = 3`: position 0 holds `S[2]`. -/
theorem first_column_position_zero_witness :
    (1 ≤ 3 ∧ 3 ≤ ([1, 2, 3, 4, 5] : List ℚ).length)
      ∧ ∃ buf : List ℚ,
        _initialize_circulant_fill (REAL ([1, 2, 3, 4, 5] : List ℚ))
            (([1, 2, 3, 4, 5] : List ℚ).length : Int) ((3 : Nat) : Int) = .ok (REAL buf)
          ∧ buf.length = ([1, 2, 3, 4, 5] : List ℚ).length
          ∧ buf.getD 0 0 = ([1, 2, 3, 4, 5] : List ℚ).getD (([1, 2, 3, 4, 5] : List ℚ).length - 3) 0
          ∧ buf.getD (3 - 1) 0
              = ([1, 2, 3, 4, 5] : List ℚ).getD (([1, 2, 3, 4, 5] : List ℚ).length - 1) 0 :=
  ⟨⟨by decide, by decide⟩, first_column_position_zero [1, 2, 3, 4, 5] 3 (by decide) (by decide)⟩

/-- The two copy loops of `_initialize_circulant` perform exactly the copies
listed by `_initialize_circulant_copies`, in that order. -/
theorem initialize_circulant_fill_eq_copies {R : Type} (F : List (Option R)) (N L : Int) :
    _initialize_circulant_fill F N L
      = (_initialize_circulant_copies N L).foldlM
          (fun c p => do let x ← load F p.2; store c p.1 x) (fftw_malloc N) := by
  unfold _initialize_circulant_fill _initialize_circulant_copies for_loop
  simp only [List.foldlM_append, List.foldlM_map]

theorem initialize_circulant_copies_fst (N L : Nat) (h2 : L ≤ N) :
    (_initialize_circulant_copies (N : Int) (L : Int)).map Prod.fst
      = (List.range N).map (fun (j : Nat) => (j : Int)) := by
  obtain ⟨M, rfl⟩ : ∃ M, N = L + M := ⟨N - L, by omega⟩
  unfold _initialize_circulant_copies
  have e1 : (((L + M : Nat) : Int) - (((L + M : Nat) : Int) - (L : Int) + 1 - 1)).toNat = L := by
    omega
  have e2 : ((((L + M : Nat) : Int) - (L : Int) + 1 - 1) - 0).toNat = M := by omega
  simp only [e1, e2, List.map_append, List.map_map, List.range_add]
  congr 1
  · apply List.map_congr_left
    intro t _
    simp only [Function.comp]
    omega
  · apply List.map_congr_left
    intro t _
    simp only [Function.comp]
    omega

/-- C12.  Full first-column layout: for `1 ≤ L ≤ N` the two copy loops of
`_initialize_circulant` write the positions `0, 1, .., N-1` of the buffer,
each exactly once and in this order; the positions `0..L-1` then hold
`S[K-1], .., S[N-1]` and the positions `L..N-1` hold `S[0], .., S[K-2]`
(`K - 1 = N - L`), that is `buffer[j] = S[(j + K - 1) mod N]`, and the buffer
is a permutation of the series. -/
theorem first_column_layout {R : Type} [Zero R] (S : List R) (L : Nat)
    (h1 : 1 ≤ L) (h2 : L ≤ S.length) :
    _initialize_circulant_fill (REAL S) (S.length : Int) (L : Int)
        = (_initialize_circulant_copies (S.length : Int) (L : Int)).foldlM
            (fun c p => do let x ← load (REAL S) p.2; store c p.1 x)
            (fftw_malloc (S.length : Int))
      ∧ (_initialize_circulant_copies (S.length : Int) (L : Int)).map Prod.fst
          = (List.range S.length).map (fun (j : Nat) => (j : Int))
      ∧ ∃ buf : List R,
          _initialize_circulant_fill (REAL S) (S.length : Int) (L : Int) = .ok (REAL buf)
            ∧ buf.length = S.length
            ∧ (∀ j, j < L → buf.getD j 0 = S.getD (S.length - L + j) 0)
            ∧ (∀ j, L ≤ j → j < S.length → buf.getD j 0 = S.getD (j - L) 0)
            ∧ (∀ j, j < S.length → buf.getD j 0 = S.getD ((j + (S.length - L)) % S.length) 0)
            ∧ buf.Perm S := by
  refine ⟨initialize_circulant_fill_eq_copies _ _ _, initialize_circulant_copies_fst _ _ h2,
    _, initialize_circulant_fill_ok S L h1 h2, circulant_column_length S L h2, ?_, ?_, ?_, ?_⟩
  · intro j hj
    rw [circulant_column_getD S L j h2 (by omega), if_pos hj]
  · intro j hj1 hj2
    rw [circulant_column_getD S L j h2 hj2, if_neg (by omega)]
  · intro j hj
    exact circulant_column_getD_mod S L j h2 hj
  · unfold circulant_column
    have hp : (S.drop (S.length - L) ++ S.take (S.length - L)).Perm
        (S.take (S.length - L) ++ S.drop (S.length - L)) := List.perm_append_comm
    rwa [List.take_append_drop] at hp

/-- C12 at `S = [1,2,3,4,5]`, `L = 3`: the buffer is `[3,4,5,1,2]`. -/
theorem first_column_layout_witness :
    (1 ≤ 3 ∧ 3 ≤ ([1, 2, 3, 4, 5] : List ℚ).length)
      ∧ (_initialize_circulant_copies 5 3).map Prod.fst = [0, 1, 2, 3, 4]
      ∧ _initialize_circulant_fill (REAL ([1, 2, 3, 4, 5] : List ℚ)) 5 3
          = .ok (REAL [3, 4, 5, 1, 2])
      ∧ ∃ buf : List ℚ,
          _initialize_circulant_fill (REAL ([1, 2, 3, 4, 5] : List ℚ)) 5 3 = .ok (REAL buf)
            ∧ ∀ j, j < 5 → buf.getD j 0 = ([1, 2, 3, 4, 5] : List ℚ).getD ((j + (5 - 3)) % 5) 0 := by
  obtain ⟨_, _, buf, hb, _, _, _, hmod, _⟩ :=
    first_column_layout ([1, 2, 3, 4, 5] : List ℚ) 3 (by decide) (by decide)
  exact ⟨⟨by decide, by decide⟩, rfl, rfl, buf, hb, hmod⟩

/-! ## Half-spectrum multiplication -/

theorem circular_index (m j N : Nat) (hj : j ≤ m + N) :
    (((m : Int) - (j : Int)) % (N : Int)).toNat = (m + N - j) % N := by
  have e : (m : Int) - (j : Int) + (N : Int) = ((m + N - j : Nat) : Int) := by omega
  rw [← Int.add_emod_self, e, ← Int.ofNat_emod, Int.toNat_ofNat]

theorem spectrum_product_getD {R : Type} [Ring R] (tw : Nat → Nat → fftw_complex R)
    (n : Nat) (a b : List R) (k : Nat) (hk : k ≤ n / 2) :
    (spectrum_product (half_spectrum tw n b) (half_spectrum tw n a)).getD k ⟨0, 0⟩
      = (dft_r2c tw n (fun j => b.getD j 0) k).mul (dft_r2c tw n (fun j => a.getD j 0) k) := by
  unfold spectrum_product
  rw [half_spectrum_length, map_range_getD_lt _ _ _ _ (by omega)]
  unfold half_spectrum
  rw [map_range_getD_lt _ _ _ _ (by omega), map_range_getD_lt _ _ _ _ (by omega)]

/-- What `_hmatmul` writes is the first `L` entries of the half-spectrum
multiplication of the first column with the padded input. -/
theorem circulant_apply_eq_take {R : Type} [Field R] (tw : Nat → Nat → fftw_complex R)
    (N L : Nat) (hL : L ≤ N) (a vs : List R) :
    circulant_apply tw N L (half_spectrum tw N a) vs
      = (half_spectrum_multiply tw N a (padded_input vs L)).take L := by
  unfold circulant_apply half_spectrum_multiply
  simp only []
  rw [← List.map_take, List.take_range, Nat.min_eq_left hL]
  apply List.map_congr_left
  intro i hi
  rw [map_range_getD_lt _ _ _ _ (by have := List.mem_range.1 hi; omega)]

/-- C13.  Half-spectrum multiplication is circular convolution: with the exact
DFT, for real sequences `a`, `b` of length `N ≥ 1`, transforming both, taking
the pointwise complex product of the `N / 2 + 1` coefficients, transforming
back and dividing every entry by `N` gives
`c[m] = sum over j < N of a[(m - j) mod N] * b[j]`; and what `_hmatmul` writes
for a stored first column `a` is the first `L` entries of this computation on
`a` and the padded input. -/
theorem half_spectrum_multiply_is_circular_convolution (tw : Nat → Nat → fftw_complex ℝ)
    (hE : ExactDFT tw) (N : Nat) (hN : 1 ≤ N) (a b : List ℝ) (ha : a.length = N)
    (hb : b.length = N) :
    half_spectrum_multiply tw N a b = circular_convolution a b
      ∧ (half_spectrum_multiply tw N a b).length = b.length
      ∧ ∀ (L : Nat) (vs : List ℝ), L ≤ N →
          circulant_apply tw N L (half_spectrum tw N a) vs
            = (half_spectrum_multiply tw N a (padded_input vs L)).take L := by
  refine ⟨?_, by simp [half_spectrum_multiply, hb],
    fun L vs hL => circulant_apply_eq_take tw N L hL a vs⟩
  unfold half_spectrum_multiply circular_convolution
  simp only []
  rw [ha]
  apply List.map_congr_left
  intro m hm
  have hm2 : m < N := List.mem_range.1 hm
  rw [half_spectrum_convolution tw hE N (by omega) (fun j => a.getD j 0) (fun j => b.getD j 0)
    _ (fun k hk => spectrum_product_getD tw N a b k hk) m]
  have hne : (N : ℝ) ≠ 0 := by exact_mod_cast (by omega : N ≠ 0)
  rw [mul_comm, mul_div_assoc, div_self hne, mul_one]
  apply Finset.sum_congr rfl
  intro j hj
  have hj2 : j < N := Finset.mem_range.1 hj
  rw [circular_index m j N (by omega)]

/-- C13 at `N = 3`, `a = [1,2,3]`, `b = [1,0,0]`: the result is `a`. -/
theorem half_spectrum_multiply_witness :
    ∃ tw : Nat → Nat → fftw_complex ℝ, ExactDFT tw
      ∧ half_spectrum_multiply tw 3 [1, 2, 3] [1, 0, 0] = [1, 2, 3] := by
  refine ⟨_, exactDFT_table, ?_⟩
  rw [(half_spectrum_multiply_is_circular_convolution _ exactDFT_table 3 (by decide)
    [1, 2, 3] [1, 0, 0] rfl rfl).1]
  simp [circular_convolution, Finset.sum_range_succ, List.range_succ]

/-! ## The scratch buffer of `_hmatmul` -/

/-- C14.  The scratch buffer of apply: for every circulant with window
`L ≥ 1` and every vector `v` of length `K ≥ 0`, the real buffer that `_hmatmul`
builds before the forward transform has `N = K + L - 1` cells, holds
`v[K-1-i]` in every cell `i < K` and `0` in every cell `K ≤ i < N`; so each of
its `N` cells is initialised. -/
theorem hmatmul_scratch_buffer {R : Type} [Zero R] (C : toeplitz_circulant R) (v : List R)
    (hL : 1 ≤ C.window) :
    ∃ circ : List (Option R),
      _hmatmul_fill (REAL v) (v.length : Int) C.window = .ok circ
        ∧ (circ.length : Int) = (v.length : Int) + C.window - 1
        ∧ (∀ i : Nat, i < v.length → circ[i]? = some (some (v.getD (v.length - 1 - i) 0)))
        ∧ (∀ i : Nat, v.length ≤ i → (i : Int) < (v.length : Int) + C.window - 1 →
            circ[i]? = some (some 0))
        ∧ (∀ i : Nat, (i : Int) < (v.length : Int) + C.window - 1 →
            ∃ x, circ[i]? = some (some x)) := by
  obtain ⟨L, hLw⟩ : ∃ L : Nat, C.window = (L : Int) := ⟨C.window.toNat, by omega⟩
  rw [hLw] at hL ⊢
  have h1 : 1 ≤ L := by omega
  have hfill := hmatmul_fill_ok v [] L h1
  rw [List.append_nil] at hfill
  have hlen := padded_input_length v L h1
  have hget : ∀ i : Nat, i < v.length + L - 1 →
      (REAL (padded_input v L))[i]? = some (some ((padded_input v L).getD i 0)) := by
    intro i hi
    have hi2 : i < (padded_input v L).length := by omega
    simp [REAL, List.getElem?_eq_getElem hi2]
  refine ⟨_, hfill, by simp only [REAL, List.length_map, hlen]; omega, ?_, ?_, ?_⟩
  · intro i hi
    rw [hget i (by omega), padded_input_getD, if_pos hi]
  · intro i hi1 hi2
    rw [hget i (by omega), padded_input_getD, if_neg (by omega)]
  · intro i hi
    exact ⟨_, hget i (by omega)⟩

/-- C14 at `v = [1,2,3]` and the circulant built from `[1,2,3,4]` with
window `2`: the buffer is `[3,2,1,0]`. -/
theorem hmatmul_scratch_buffer_witness :
    1 ≤ (built_circulant tw_rat [1, 2, 3, 4] 2).window
      ∧ _hmatmul_fill (REAL ([1, 2, 3] : List ℚ)) 3 2 = .ok (REAL [3, 2, 1, 0])
      ∧ ∃ circ : List (Option ℚ),
        _hmatmul_fill (REAL ([1, 2, 3] : List ℚ)) (([1, 2, 3] : List ℚ).length : Int)
            (built_circulant tw_rat [1, 2, 3, 4] 2).window = .ok circ
          ∧ (circ.length : Int) = (([1, 2, 3] : List ℚ).length : Int)
              + (built_circulant tw_rat [1, 2, 3, 4] 2).window - 1 := by
  obtain ⟨circ, h1, h2, _⟩ := hmatmul_scratch_buffer
    (built_circulant tw_rat [1, 2, 3, 4] 2) ([1, 2, 3] : List ℚ) (by decide)
  exact ⟨by decide, rfl, circ, h1, h2⟩

/-! ## The two orientations -/

/-- With the exact DFT, `_hmatmul` on the circulant built for window `W` and a
vector of the accepted length writes the dense Hankel product. -/
theorem hmatmul_core_exact (tw : Nat → Nat → fftw_complex ℝ) (hE : ExactDFT tw)
    (S v : List ℝ) (W : Nat) (h1 : 1 ≤ W) (h2 : W ≤ S.length)
    (hv : v.length = S.length - W + 1) :
    (_hmatmul tw (fftw_malloc (W : Int)) (REAL v) (v.length : Int)
        (built_circulant tw S W)).value = .ok (REAL (hankel_mul S W v)) := by
  have := hmatmul_value_built tw S W h1 h2 v [] hv
  rw [List.append_nil] at this
  rw [this, circulant_apply_eq_hankel tw hE S v W h1 h2 hv]

/-- The operator built with window `N - L + 1` is the one built with window
`L` with its two circulants exchanged. -/
theorem initialize_hmat_cowindow {R : Type} [Ring R] (tw : Nat → Nat → fftw_complex R)
    (S : List R) (L : Nat) (h1 : 1 ≤ L) (h2 : L ≤ S.length) :
    (initialize_hmat tw S ((S.length : Int) - (L : Int) + 1)).value
      = .ok { normal := built_circulant tw S (S.length - L + 1)
              transposed := built_circulant tw S L } := by
  have e : (S.length : Int) - (L : Int) + 1 = ((S.length - L + 1 : Nat) : Int) := by omega
  have hb := initialize_hmat_ok tw S (S.length - L + 1) (by omega) (by omega)
  have e2 : S.length - (S.length - L + 1) + 1 = L := by omega
  rw [e2] at hb
  rw [e, hb]

/-- C15 (code bug).  For `S = [1,2,3,4]` and `L = 2` the transposed circulant
of the operator built with window `L` is the normal circulant of the operator
built with window `N - L + 1 = 3`, and the other way round; yet
`hmatmul(w, true)` on the first operator and `hmatmul(w, false)` on the second
are two calls, each reading its vector through its own unassigned pointer
`rV`, and they need not return the same vector: for `w = [1,1]`, with `[1,0]`
behind `rV` in the first call and `[0,1]` in the second, the first returns
`[1,2,3]` and the second `[2,3,4]`. -/
theorem window_cowindow_calls_differ :
    ∃ tw : Nat → Nat → fftw_complex ℝ, ExactDFT tw ∧
      ∃ h h' : hankel_matrix ℝ,
        (initialize_hmat tw [1, 2, 3, 4] 2).value = .ok h
          ∧ (initialize_hmat tw [1, 2, 3, 4] (4 - 2 + 1)).value = .ok h'
          ∧ h.transposed = h'.normal
          ∧ h.normal = h'.transposed
          ∧ (hmatmul tw (REAL [1, 0]) h [1, 1] true).value = .ok (REAL [1, 2, 3])
          ∧ (hmatmul tw (REAL [0, 1]) h' [1, 1] false).value = .ok (REAL [2, 3, 4])
          ∧ (hmatmul tw (REAL [1, 0]) h [1, 1] true).value
              ≠ (hmatmul tw (REAL [0, 1]) h' [1, 1] false).value := by
  obtain ⟨tw, hE⟩ : ∃ tw : Nat → Nat → fftw_complex ℝ, ExactDFT tw := ⟨_, exactDFT_table⟩
  have k1 : (hmatmul tw (REAL [1, 0])
      { normal := built_circulant tw [1, 2, 3, 4] 2
        transposed := built_circulant tw [1, 2, 3, 4] (([1, 2, 3, 4] : List ℝ).length - 2 + 1) }
      [1, 1] true).value = .ok (REAL [1, 2, 3]) := by
    have := hmatmul_built_exact tw hE [1, 2, 3, 4] 2 (by decide) (by decide)
      true [1, 1] [1, 0] [] rfl rfl
    rw [List.append_nil] at this
    rw [this]
    simp [hankel_tmul, Finset.sum_range_succ, List.range_succ]
  have k2 : (hmatmul tw (REAL [0, 1])
      { normal := built_circulant tw [1, 2, 3, 4] (([1, 2, 3, 4] : List ℝ).length - 2 + 1)
        transposed := built_circulant tw [1, 2, 3, 4] 2 }
      [1, 1] false).value = .ok (REAL [2, 3, 4]) := by
    have := hmatmul_built_exact tw hE [1, 2, 3, 4] 3 (by decide) (by decide)
      false [1, 1] [0, 1] [] rfl rfl
    rw [List.append_nil] at this
    exact this.trans (by simp [hankel_mul, Finset.sum_range_succ, List.range_succ])
  have hb := initialize_hmat_cowindow tw [1, 2, 3, 4] 2 (by decide) (by decide)
  have e : ((([1, 2, 3, 4] : List ℝ).length : Int) - ((2 : Nat) : Int) + 1) = 4 - 2 + 1 := rfl
  rw [e] at hb
  refine ⟨tw, hE, _, _, initialize_hmat_ok tw [1, 2, 3, 4] 2 (by decide) (by decide), hb,
    rfl, rfl, k1, k2, ?_⟩
  rw [k1, k2]
  intro hne
  simp [REAL] at hne

theorem hankel_mul_getD {R : Type} [Ring R] (S v : List R) (L i : Nat) (hi : i < L) :
    (hankel_mul S L v).getD i 0
      = ∑ j in range (S.length - L + 1), S.getD (i + j) 0 * v.getD j 0 := by
  unfold hankel_mul
  rw [map_range_getD_lt _ _ _ _ hi]

/-- C16.  Adjointness of the two orientations: with the exact DFT, for
`1 ≤ L ≤ N`, `v` of length `K = N - L + 1` and `w` of length `L`, the core
results `y = apply(normal, v)` and `z = apply(transposed, w)` satisfy
`sum over i < L of y[i] * w[i] = sum over j < K of v[j] * z[j]`. -/
theorem core_apply_adjoint (tw : Nat → Nat → fftw_complex ℝ) (hE : ExactDFT tw)
    (S v w : List ℝ) (L : Nat) (h1 : 1 ≤ L) (h2 : L ≤ S.length)
    (hv : v.length = S.length - L + 1) (hw : w.length = L) :
    ∃ (h : hankel_matrix ℝ) (y z : List ℝ),
      (initialize_hmat tw S (L : Int)).value = .ok h
        ∧ (_hmatmul tw (fftw_malloc h.normal.window) (REAL v) (v.length : Int)
            h.normal).value = .ok (REAL y)
        ∧ (_hmatmul tw (fftw_malloc h.transposed.window) (REAL w) (w.length : Int)
            h.transposed).value = .ok (REAL z)
        ∧ ∑ i in range L, y.getD i 0 * w.getD i 0
            = ∑ j in range (S.length - L + 1), v.getD j 0 * z.getD j 0 := by
  refine ⟨_, _, _, initialize_hmat_ok tw S L h1 h2,
    hmatmul_core_exact tw hE S v L h1 h2 hv,
    hmatmul_core_exact tw hE S w (S.length - L + 1) (by omega) (by omega) (by omega), ?_⟩
  have e2 : S.length - (S.length - L + 1) + 1 = L := by omega
  have hy : ∀ i ∈ range L, (hankel_mul S L v).getD i 0 * w.getD i 0
      = ∑ j in range (S.length - L + 1), S.getD (i + j) 0 * v.getD j 0 * w.getD i 0 := by
    intro i hi
    rw [hankel_mul_getD S v L i (Finset.mem_range.1 hi), Finset.sum_mul]
  have hz : ∀ j ∈ range (S.length - L + 1),
      v.getD j 0 * (hankel_mul S (S.length - L + 1) w).getD j 0
        = ∑ i in range L, S.getD (i + j) 0 * v.getD j 0 * w.getD i 0 := by
    intro j hj
    rw [hankel_mul_getD S w (S.length - L + 1) j (Finset.mem_range.1 hj), e2, Finset.mul_sum]
    apply Finset.sum_congr rfl
    intro i _
    rw [add_comm j i]
    ring
  rw [Finset.sum_congr rfl hy, Finset.sum_congr rfl hz, Finset.sum_comm]

/-- C16 at `S = [1,2,3,4,5]`, `L = 3`, `v = [1,0,0]`, `w = [0,1,0]`. -/
theorem core_apply_adjoint_witness :
    ∃ tw : Nat → Nat → fftw_complex ℝ, ExactDFT tw
      ∧ ∃ (h : hankel_matrix ℝ) (y z : List ℝ),
        (initialize_hmat tw [1, 2, 3, 4, 5] ((3 : Nat) : Int)).value = .ok h
          ∧ (_hmatmul tw (fftw_malloc h.normal.window) (REAL [1, 0, 0])
              (([1, 0, 0] : List ℝ).length : Int) h.normal).value = .ok (REAL y)
          ∧ (_hmatmul tw (fftw_malloc h.transposed.window) (REAL [0, 1, 0])
              (([0, 1, 0] : List ℝ).length : Int) h.transposed).value = .ok (REAL z)
          ∧ ∑ i in range 3, y.getD i 0 * ([0, 1, 0] : List ℝ).getD i 0
              = ∑ j in range (([1, 2, 3, 4, 5] : List ℝ).length - 3 + 1),
                  ([1, 0, 0] : List ℝ).getD j 0 * z.getD j 0 :=
  ⟨_, exactDFT_table,
    core_apply_adjoint _ exactDFT_table [1, 2, 3, 4, 5] [1, 0, 0] [0, 1, 0] 3
      (by decide) (by decide) rfl rfl⟩

/-! ## Index safety of `_hmatmul` -/

/-- C17.  Index safety of apply under the length check: for a circulant `C`
built by `_initialize_circulant` with `1 ≤ L ≤ N` and a vector `v` with
`length(v) + C.window - 1 = C.length`, the vector has at least one element,
the size `K + L - 1` that `_hmatmul` computes is the size of both stored plans,
and the stored frequency response has `N / 2 + 1` cells.  Run on a `v` of
exactly `K` cells and an `out` of exactly `L` cells, with scratch buffers of
`N` and `N / 2 + 1` cells, `_hmatmul` completes: every access of the checked
memory model is inside its buffer and reads a written cell, and all `L` cells
of `out` are written. -/
theorem hmatmul_index_safety {R : Type} [Field R] (tw : Nat → Nat → fftw_complex R)
    (S : List R) (L : Nat) (h1 : 1 ≤ L) (h2 : L ≤ S.length) (C : toeplitz_circulant R)
    (hC : (_initialize_circulant tw (REAL S) (S.length : Int) (L : Int)).value = .ok C)
    (v : List R) (hv : (v.length : Int) + C.window - 1 = C.length) :
    1 ≤ v.length
      ∧ C.r2c_plan = (v.length : Int) + C.window - 1
      ∧ C.c2r_plan = (v.length : Int) + C.window - 1
      ∧ (C.circ_freq.length : Int) = ((v.length : Int) + C.window - 1).tdiv 2 + 1
      ∧ (_hmatmul tw (fftw_malloc C.window) (REAL v) (v.length : Int) C).allocs
          = [.fftw_malloc_double ((v.length : Int) + C.window - 1),
             .fftw_malloc_complex (((v.length : Int) + C.window - 1).tdiv 2 + 1)]
      ∧ (fftw_malloc C.window : List (Option R)).length = L
      ∧ ∃ y : List R,
          (_hmatmul tw (fftw_malloc C.window) (REAL v) (v.length : Int) C).value
              = .ok (REAL y)
            ∧ y.length = L := by
  rw [initialize_circulant_ok tw S L h1 h2] at hC
  cases hC
  simp only [built_circulant] at hv
  have hK : v.length = S.length - L + 1 := by omega
  have e : (v.length : Int) + (L : Int) - 1 = (S.length : Int) := by omega
  have hrun := hmatmul_value_built tw S L h1 h2 v [] hK
  rw [List.append_nil] at hrun
  refine ⟨by omega, ?_, ?_, ?_, rfl, by simp [fftw_malloc, built_circulant], _, hrun,
    circulant_apply_length _ _ _ _ _⟩
  · simp only [built_circulant]; omega
  · simp only [built_circulant]; omega
  · simp only [built_circulant, REAL, List.length_map, half_spectrum_length]
    rw [e, tdiv_two]
    push_cast
    rfl

/-- C17 at `S = [1,2,3,4]`, `L = 2`, `v = [1,0,0]`. -/
theorem hmatmul_index_safety_witness :
    ((_initialize_circulant tw_rat (REAL [1, 2, 3, 4]) (([1, 2, 3, 4] : List ℚ).length : Int)
          ((2 : Nat) : Int)).value = .ok (built_circulant tw_rat [1, 2, 3, 4] 2)
        ∧ (([1, 0, 0] : List ℚ).length : Int) + (built_circulant tw_rat [1, 2, 3, 4] 2).window - 1
            = (built_circulant tw_rat [1, 2, 3, 4] 2).length)
      ∧ ∃ y : List ℚ,
          (_hmatmul tw_rat (fftw_malloc (built_circulant tw_rat [1, 2, 3, 4] 2).window)
              (REAL [1, 0, 0]) (([1, 0, 0] : List ℚ).length : Int)
              (built_circulant tw_rat [1, 2, 3, 4] 2)).value = .ok (REAL y)
            ∧ y.length = 2 :=
  ⟨⟨initialize_circulant_ok tw_rat [1, 2, 3, 4] 2 (by decide) (by decide), rfl⟩,
    (hmatmul_index_safety tw_rat [1, 2, 3, 4] 2 (by decide) (by decide) _
      (initialize_circulant_ok tw_rat [1, 2, 3, 4] 2 (by decide) (by decide))
      [1, 0, 0] rfl).2.2.2.2.2.2⟩

end Hmatmul
